import Mathlib

/-!
Verification development for the WhatsApp bookkeeper pipeline
(`whatsapp_bookkeeper`: `categorizer.py`, `config.py`, `extractor.py`,
`ledger.py`, `ocr.py`, `whatsapp_sim.py`).

Text is modelled as `List Char` (Python `str` is a sequence of code
points, and all comparisons below are code-point comparisons, exactly as
in Python).  Monetary values are modelled as `ℚ`: every amount that the
program can produce is a decimal fraction, which `float` represents and
compares exactly on the magnitudes involved; using `ℚ` keeps the decimal
arithmetic of the source exact.

The regular expressions of the source are embedded as hand-written
scanners with Python `re` semantics (leftmost match, greedy/lazy
quantifiers with backtracking).  Each scanner is documented with the
pattern it implements.
-/

namespace WB

/-- Python whitespace (`\s` of the `re` module, ASCII range; the receipts
and messages of this program are ASCII/Latin text). -/
def isPySpace (c : Char) : Bool :=
  c == ' ' || c == '\t' || c == '\n' || c == '\r' || c == '\x0b' || c == '\x0c'

/-- The character class `[\d.,]` used by every money-token group. -/
def isMoneyChar (c : Char) : Bool :=
  c.isDigit || c == '.' || c == ','

/-- `str.lower` / `re.IGNORECASE`, modelled on the ASCII range
(`Char.toLower` lowers exactly `A`–`Z`; the keyword tables matched
case-insensitively are ASCII or already lower-case). -/
def lowerL (l : List Char) : List Char :=
  l.map Char.toLower

/-- Python `str.strip()` (strip leading and trailing whitespace). -/
def pyStrip (l : List Char) : List Char :=
  ((l.dropWhile isPySpace).reverse.dropWhile isPySpace).reverse

/-- Value of a (non-empty) digit string, most significant digit first. -/
def natOfDigits (l : List Char) : ℕ :=
  l.foldl (fun a c => 10 * a + (c.toNat - 48)) 0

/-- Python `float(s)` restricted to the strings reachable in this
program: every call site passes a string over digits and `'.'` (the
captured tokens match `[\d.,]+` and the transforms remove `'.'` and map
`','` to `'.'`), for which `float` succeeds iff the string has at least
one digit and at most one dot.  Other float-literal forms (exponents,
`inf`, signs, underscores) cannot arise from those character classes and
are mapped to `none` here. -/
def floatOfClean (l : List Char) : Option ℚ :=
  if l.all (fun c => c.isDigit || c == '.') && l.any Char.isDigit
      && l.count '.' ≤ 1 then
    let ip := l.takeWhile (fun c => c != '.')
    let fp := (l.dropWhile (fun c => c != '.')).drop 1
    some (mkRat (natOfDigits ip * 10 ^ fp.length + natOfDigits fp) (10 ^ fp.length))
  else
    none

/-- `s.replace("R$", "")`: remove the (non-overlapping, left-to-right)
occurrences of the two-character substring `R$`. -/
def removeRS : List Char → List Char
  | 'R' :: '$' :: t => removeRS t
  | c :: t => c :: removeRS t
  | [] => []

/-- `extractor._parse_brazilian_number`: strip `R$` and spaces, drop the
thousands separator `'.'`, turn the decimal `','` into `'.'`, and parse
as a float. -/
def parseBrazilianNumber (l : List Char) : Option ℚ :=
  let s1 := (removeRS l).filter (fun c => c != ' ')
  let s2 := pyStrip s1
  let s3 := s2.filter (fun c => c != '.')
  floatOfClean (s3.map (fun c => if c == ',' then '.' else c))

/-- A line item `{name, qty, unit_price}` as produced by the extractor
and stored in the ledger. -/
structure Item where
  name : String
  qty : ℕ
  unit_price : ℚ
deriving DecidableEq

/-- The transaction dict produced by `extractor.extract_fields` /
`whatsapp_sim._parse_quick_entry`. -/
structure Transaction where
  date : String
  total : ℚ
  items : List Item
  type : String
  description : String
  raw_text : String
deriving DecidableEq

/-- `config.CATEGORY_RULES`, in source (insertion) order — the walk
returns the category of the first keyword that is a substring. -/
def CATEGORY_RULES : List (String × String) :=
  [("venda", "sales"), ("vendas", "sales"), ("sold", "sales"),
   ("sale", "sales"), ("receita", "sales"), ("revenue", "sales"),
   ("pagamento recebido", "sales"), ("payment received", "sales"),
   ("pix recebido", "sales"),
   ("fornecedor", "supplies"), ("supplier", "supplies"),
   ("material", "supplies"), ("matéria", "supplies"),
   ("insumo", "supplies"), ("ingrediente", "supplies"),
   ("estoque", "supplies"), ("stock", "supplies"),
   ("aluguel", "rent"), ("rent", "rent"),
   ("luz", "utilities"), ("energia", "utilities"),
   ("água", "utilities"), ("water", "utilities"),
   ("electricity", "utilities"),
   ("internet", "internet"), ("telefone", "phone"), ("phone", "phone"),
   ("transporte", "transport"), ("uber", "transport"),
   ("gasolina", "transport"), ("gas", "transport"),
   ("fuel", "transport"), ("combustível", "transport"),
   ("almoço", "food"), ("lanche", "food"), ("comida", "food"),
   ("restaurante", "food"), ("lunch", "food"), ("food", "food"),
   ("manutenção", "maintenance"), ("conserto", "maintenance"),
   ("repair", "maintenance"),
   ("salário", "wages"), ("funcionário", "wages"),
   ("employee", "wages"), ("salary", "wages"), ("wages", "wages")]

/-- Python `needle in hay` (substring test). -/
def isSub (n : List Char) : List Char → Bool
  | [] => n.isEmpty
  | c :: t => n.isPrefixOf (c :: t) || isSub n t

/-- `categorizer._match_rules`: first rule whose keyword occurs in the
text wins. -/
def matchRules (text : List Char) : Option String :=
  CATEGORY_RULES.findSome? (fun r => if isSub r.1.data text then some r.2 else none)

/-- The lower-cased searchable text of `categorizer.categorize`:
`" ".join([description, raw_text, " ".join(item names)]).lower()`. -/
def searchableText (t : Transaction) : List Char :=
  lowerL (t.description ++ " " ++ t.raw_text ++ " "
    ++ String.intercalate " " (t.items.map Item.name)).data

/-- `categorizer.categorize`.  The LLM fallback branch is an external
collaborator (spec section 6) behind `config.OPENAI_API_KEY`, which is
empty by default; this models the deterministic path (rules, then
`"other"`). -/
def categorize (t : Transaction) : String :=
  if t.type == "sale" then "sales"
  else
    match matchRules (searchableText t) with
    | some c => c
    | none => "other"

/-! ### Quick entry (`whatsapp_sim._parse_quick_entry`) -/

/-- The alternation `(venda|vendas|sale|receita|despesa|gasto|expense|compra)`,
in source order (Python tries alternatives left to right). -/
def QUICK_VERBS : List String :=
  ["venda", "vendas", "sale", "receita", "despesa", "gasto", "expense", "compra"]

/-- The verbs that resolve to a sale:
`type_word in ("venda", "vendas", "sale", "receita")`. -/
def SALE_VERBS : List String := ["venda", "vendas", "sale", "receita"]

/-- `R?\$?` of the quick-entry pattern (with `re.IGNORECASE`, so `R`
matches `r`): strip an optional `R`/`r` and then an optional `$`. -/
def stripCurrencyPrefix (r1 : List Char) : List Char :=
  let r2 := if r1.head? == some 'R' || r1.head? == some 'r' then r1.tail else r1
  if r2.head? == some '$' then r2.tail else r2

/-- `\s*([\d.,]+)\s*(.*)` of the quick-entry pattern: skip whitespace,
take the (maximal, non-empty) money token, then the `(.*)` capture (`.`
does not cross a newline, and the `\s*` before it may).  All quantifier
choices are forced: the character classes of adjacent atoms are
disjoint, so the greedy matches are the only possible ones. -/
def quickTail (r3 : List Char) : Option (List Char × List Char) :=
  let r4 := r3.dropWhile isPySpace
  let tok := r4.takeWhile isMoneyChar
  if tok.isEmpty then none
  else
    some (tok, (((r4.dropWhile isMoneyChar).dropWhile isPySpace).takeWhile
      (fun c => c != '\n')))

/-- The tail of the quick-entry pattern after the verb:
`\s+R?\$?\s*([\d.,]+)\s*(.*)`.  Requires at least one whitespace
character after the verb.  Returns the amount token and the raw `(.*)`
capture. -/
def quickRestMatch (l : List Char) : Option (List Char × List Char) :=
  if (l.takeWhile isPySpace).isEmpty then none
  else quickTail (stripCurrencyPrefix (l.dropWhile isPySpace))

/-- `re.match` of the quick-entry pattern: try each verb of the
alternation in order at the start of the (stripped) text,
case-insensitively, and match the tail after it.  Returns
`(type_word, amount token, raw description)`. -/
def quickVerbMatch (l : List Char) : Option (String × List Char × List Char) :=
  QUICK_VERBS.findSome? (fun v =>
    if lowerL (l.take v.length) == v.data then
      (quickRestMatch (l.drop v.length)).map (fun p => (v, p.1, p.2))
    else none)

/-- Python `str.capitalize()`: first character upper-cased, the rest
lower-cased (ASCII model). -/
def pyCapitalize (s : String) : String :=
  match s.data with
  | [] => ""
  | c :: t => String.mk (c.toUpper :: lowerL t)

/-- The amount conversion of the quick entry:
`amount_str.replace(".", "").replace(",", ".")` then `float`. -/
def quickAmount (tok : List Char) : Option ℚ :=
  floatOfClean ((tok.filter (fun c => c != '.')).map (fun c => if c == ',' then '.' else c))

/-- `whatsapp_sim._parse_quick_entry`.  `todayIso` abstracts
`datetime.now().strftime("%Y-%m-%d")` (the process clock). -/
def parseQuickEntry (text : String) (todayIso : String) : Option Transaction :=
  match quickVerbMatch (pyStrip text.data) with
  | none => none
  | some (v, tok, drest) =>
    match quickAmount tok with
    | none => none
    | some amt =>
      let d0 := pyStrip drest
      some { date := todayIso
             total := amt
             items := []
             type := if SALE_VERBS.contains v then "sale" else "expense"
             description := if d0.isEmpty then pyCapitalize v else String.mk d0
             raw_text := text }

/-! ### Field extraction (`extractor.py`, regex path)

`extract_fields` delegates to `_extract_with_regex` whenever no OpenAI
key is configured (the default); the LLM branch is an external
collaborator (spec section 6) and is not part of this core. -/

/-- The attempt of `TOTAL\s*:?\s*R?\$?\s*([\d.,]+)` (with
`re.IGNORECASE`) at the head of `l`; returns the money-token capture.
The quantifier choices are forced (adjacent atoms have disjoint
character classes), so the scan is deterministic. -/
def matchTotalAt (l : List Char) : Option (List Char) :=
  if lowerL (l.take 5) == "total".data then
    let r0 := (l.drop 5).dropWhile isPySpace
    let r1 := if r0.head? == some ':' then r0.tail else r0
    let r2 := r1.dropWhile isPySpace
    let r3 := if r2.head? == some 'R' || r2.head? == some 'r' then r2.tail else r2
    let r4 := if r3.head? == some '$' then r3.tail else r3
    let tok := (r4.dropWhile isPySpace).takeWhile isMoneyChar
    if tok.isEmpty then none else some tok
  else none

/-- `re.search` of the `TOTAL` pattern: leftmost position where the
whole pattern matches. -/
def searchTotal : List Char → Option (List Char)
  | [] => none
  | c :: t =>
    match matchTotalAt (c :: t) with
    | some tok => some tok
    | none => searchTotal t

/-- The attempt of `^Valor\s*:\s*R?\$?\s*([\d.,]+)` (with
`re.IGNORECASE | re.MULTILINE`) at the head of `l` (which must be a
line-start position). -/
def matchValorAt (l : List Char) : Option (List Char) :=
  if lowerL (l.take 5) == "valor".data then
    let r0 := (l.drop 5).dropWhile isPySpace
    if r0.head? == some ':' then
      let r1 := r0.tail.dropWhile isPySpace
      let r2 := if r1.head? == some 'R' || r1.head? == some 'r' then r1.tail else r1
      let r3 := if r2.head? == some '$' then r2.tail else r2
      let tok := (r3.dropWhile isPySpace).takeWhile isMoneyChar
      if tok.isEmpty then none else some tok
    else none
  else none

/-- `re.search` of the `Valor` pattern: try every line-start position
(the start of the string, and each position after a newline), left to
right. -/
def searchValorAux : Bool → List Char → Option (List Char)
  | _, [] => none
  | atStart, c :: t =>
    match (if atStart then matchValorAt (c :: t) else none) with
    | some tok => some tok
    | none => searchValorAux (c == '\n') t

/-- Leftmost match of the `Valor:` line pattern. -/
def searchValor (l : List Char) : Option (List Char) :=
  searchValorAux true l

/-- `extractor._extract_total`: prefer the `TOTAL` pattern and, when it
matched, return its parse result directly (a token that fails the money
conversion yields `none` here without consulting the `Valor:`
fallback); otherwise try the `Valor:` line. -/
def extract_total (l : List Char) : Option ℚ :=
  match searchTotal l with
  | some tok => parseBrazilianNumber tok
  | none =>
    match searchValor l with
    | some tok => parseBrazilianNumber tok
    | none => none

/-- `[/\-]` -/
def isDateSep (c : Char) : Bool := c == '/' || c == '-'

/-- After both day and month groups: require a separator and then
exactly `\d{4}` for the year. -/
def matchSepYear (day mon : ℕ) : List Char → Option (ℕ × ℕ × ℕ)
  | s :: t =>
    if isDateSep s then
      let y4 := t.take 4
      if y4.length == 4 && y4.all Char.isDigit then some (day, mon, natOfDigits y4)
      else none
    else none
  | [] => none

/-- The month group `(\d{1,2})[/\-](\d{4})…`: greedy `\d{1,2}` — try
two digits, backtracking to one if the rest does not match. -/
def matchMonth (day : ℕ) : List Char → Option (ℕ × ℕ × ℕ)
  | a :: b :: t =>
    if a.isDigit then
      if b.isDigit then
        match matchSepYear day (natOfDigits [a, b]) t with
        | some r => some r
        | none => matchSepYear day (natOfDigits [a]) (b :: t)
      else matchSepYear day (natOfDigits [a]) (b :: t)
    else none
  | _ => none

/-- After the day group: `[/\-]` then the month/year tail. -/
def matchSepMonth (day : ℕ) : List Char → Option (ℕ × ℕ × ℕ)
  | s :: t => if isDateSep s then matchMonth day t else none
  | [] => none

/-- One attempt of `(\d{1,2})[/\-](\d{1,2})[/\-](\d{4})` at the head of
the text, with the greedy/backtracking behaviour of `re` (longer digit
group first). -/
def matchDateAt : List Char → Option (ℕ × ℕ × ℕ)
  | a :: b :: t =>
    if a.isDigit then
      if b.isDigit then
        match matchSepMonth (natOfDigits [a, b]) t with
        | some r => some r
        | none => matchSepMonth (natOfDigits [a]) (b :: t)
      else matchSepMonth (natOfDigits [a]) (b :: t)
    else none
  | _ => none

/-- `re.search` of the date pattern: first (leftmost) match wins. -/
def searchDate : List Char → Option (ℕ × ℕ × ℕ)
  | [] => none
  | c :: t =>
    match matchDateAt (c :: t) with
    | some r => some r
    | none => searchDate t

/-- Gregorian leap-year rule, as implemented by `datetime.date`. -/
def isLeap (y : ℕ) : Bool :=
  y % 4 == 0 && (y % 100 != 0 || y % 400 == 0)

/-- Days in month `m` of a (non-)leap year. -/
def daysInMonth (b : Bool) (m : ℕ) : ℕ :=
  match m with
  | 1 => 31 | 2 => if b then 29 else 28 | 3 => 31 | 4 => 30 | 5 => 31
  | 6 => 30 | 7 => 31 | 8 => 31 | 9 => 30 | 10 => 31 | 11 => 30 | 12 => 31
  | _ => 0

/-- The domain of `datetime.date(year, month, day)` (it raises
`ValueError` outside it): years 1–9999, valid month and day. -/
def validYMD (y m d : ℕ) : Prop :=
  1 ≤ y ∧ y ≤ 9999 ∧ 1 ≤ m ∧ m ≤ 12 ∧ 1 ≤ d ∧ d ≤ daysInMonth (isLeap y) m

instance (y m d : ℕ) : Decidable (validYMD y m d) := by
  unfold validYMD; infer_instance

/-- A calendar date (the model of `datetime.date`). -/
structure Date where
  year : ℕ
  month : ℕ
  day : ℕ
deriving DecidableEq

/-- ASCII digit of a value `0`–`9`. -/
def digitChar (d : ℕ) : Char :=
  match d with
  | 0 => '0' | 1 => '1' | 2 => '2' | 3 => '3' | 4 => '4'
  | 5 => '5' | 6 => '6' | 7 => '7' | 8 => '8' | 9 => '9'
  | _ => '*'

/-- `v` written with exactly `n` decimal digits (leading zeros). -/
def padNat : ℕ → ℕ → List Char
  | 0, _ => []
  | n + 1, v => digitChar (v / 10 ^ n) :: padNat n (v % 10 ^ n)

/-- `date(y, m, d).isoformat()` / `strftime("%Y-%m-%d")`:
zero-padded `YYYY-MM-DD`. -/
def isoYMD (y m d : ℕ) : String :=
  String.mk (padNat 4 y ++ '-' :: (padNat 2 m ++ '-' :: padNat 2 d))

/-- ISO rendering of a `Date`. -/
def Date.toISO (dt : Date) : String :=
  isoYMD dt.year dt.month dt.day

/-- `extractor._parse_date`: take the first match of the date pattern;
if it is a valid calendar date return it in ISO form, otherwise (no
match, or `date()` raised `ValueError`) fall back to the process clock
`today`. -/
def pyParseDate (text : List Char) (today : Date) : String :=
  match searchDate text with
  | some (d, m, y) => if validYMD y m d then isoYMD y m d else today.toISO
  | none => today.toISO

/-- The sale keywords of `extractor._detect_type`, in source order. -/
def SALE_KEYWORDS : List String :=
  ["venda", "vendas", "recibo de venda", "sold", "sale",
   "pagamento recebido", "pix recebido"]

/-- `extractor._detect_type`: any sale keyword in the lower-cased text
makes it a sale. -/
def detectType (l : List Char) : String :=
  if SALE_KEYWORDS.any (fun kw => isSub kw.data (lowerL l)) then "sale" else "expense"

/-- The tail of item pattern 1 after the lazy name capture:
`\s+Qtd:\s*(\d+)\s+Valor:\s*R?\$?\s*([\d.,]+)` (case-insensitive).
Returns `(qty, money token, rest of the text after the match)`.  Every
quantifier choice is forced by disjoint character classes. -/
def produtoAfterName (l : List Char) : Option (ℕ × List Char × List Char) :=
  if (l.takeWhile isPySpace).isEmpty then none
  else
    let r0 := l.dropWhile isPySpace
    if lowerL (r0.take 4) == "qtd:".data then
      let r1 := (r0.drop 4).dropWhile isPySpace
      let ds := r1.takeWhile Char.isDigit
      if ds.isEmpty then none
      else
        let r2 := r1.dropWhile Char.isDigit
        if (r2.takeWhile isPySpace).isEmpty then none
        else
          let r3 := r2.dropWhile isPySpace
          if lowerL (r3.take 6) == "valor:".data then
            let r4 := (r3.drop 6).dropWhile isPySpace
            let r5 := if r4.head? == some 'R' || r4.head? == some 'r' then r4.tail else r4
            let r6 := if r5.head? == some '$' then r5.tail else r5
            let r7 := r6.dropWhile isPySpace
            let tok := r7.takeWhile isMoneyChar
            if tok.isEmpty then none
            else some (natOfDigits ds, tok, r7.dropWhile isMoneyChar)
          else none
    else none

/-- One attempt of item pattern 1
`Produto:\s*(.+?)\s+Qtd:\s*(\d+)\s+Valor:\s*R?\$?\s*([\d.,]+)` at the
head of the text.  After the literal, the greedy `\s*` is tried longest
first and, inside it, the lazy `(.+?)` shortest first (`.` does not
match a newline) — exactly the backtracking order of `re`.  Returns the
captures and the rest of the text after the match. -/
def matchProdutoAt (l : List Char) : Option ((List Char × ℕ × List Char) × List Char) :=
  if lowerL (l.take 8) == "produto:".data then
    let r0 := l.drop 8
    let run := (r0.takeWhile isPySpace).length
    (List.range (run + 1)).findSome? (fun back =>
      let base := r0.drop (run - back)
      (List.range base.length).findSome? (fun i =>
        let name := base.take (i + 1)
        if name.all (fun c => c != '\n') then
          match produtoAfterName (base.drop (i + 1)) with
          | some (q, tok, rest) => some ((name, q, tok), rest)
          | none => none
        else none))
  else none

/-- Leftmost match of item pattern 1 from the given position. -/
def searchProduto : List Char → Option ((List Char × ℕ × List Char) × List Char)
  | [] => none
  | c :: t =>
    match matchProdutoAt (c :: t) with
    | some r => some r
    | none => searchProduto t

/-- `finditer` of item pattern 1: non-overlapping matches, scanning
resuming after each match.  Every match consumes at least one
character, so `l.length + 1` steps of fuel always suffice. -/
def finditerProduto : ℕ → List Char → List (List Char × ℕ × List Char)
  | 0, _ => []
  | fuel + 1, l =>
    match searchProduto l with
    | some (g, rest) => g :: finditerProduto fuel rest
    | none => []

/-- Split on newlines (model of the `re.MULTILINE` line structure; both
line-anchored item patterns match within a single line). -/
def splitNL : List Char → List (List Char)
  | [] => [[]]
  | c :: t =>
    if c == '\n' then [] :: splitNL t
    else
      match splitNL t with
      | h :: r => (c :: h) :: r
      | [] => [[c]]

/-- The tail of item pattern 2 after the lazy name:
`\s+(\d+)\s*[xX]\s+R?\$?\s*([\d.,]+)\s*$` (no `IGNORECASE`: the `R` is
case-sensitive).  Returns `(qty, money token)`; requires the line to
end after the trailing whitespace. -/
def qtyXAfterName (l : List Char) : Option (ℕ × List Char) :=
  if (l.takeWhile isPySpace).isEmpty then none
  else
    let r0 := l.dropWhile isPySpace
    let ds := r0.takeWhile Char.isDigit
    if ds.isEmpty then none
    else
      match (r0.dropWhile Char.isDigit).dropWhile isPySpace with
      | x :: r2 =>
        if x == 'x' || x == 'X' then
          if (r2.takeWhile isPySpace).isEmpty then none
          else
            let r3 := r2.dropWhile isPySpace
            let r4 := if r3.head? == some 'R' then r3.tail else r3
            let r5 := if r4.head? == some '$' then r4.tail else r4
            let r6 := r5.dropWhile isPySpace
            let tok := r6.takeWhile isMoneyChar
            if tok.isEmpty then none
            else if ((r6.dropWhile isMoneyChar).dropWhile isPySpace).isEmpty then
              some (natOfDigits ds, tok)
            else none
        else none
      | [] => none

/-- Item pattern 2 `^(.+?)\s+(\d+)\s*[xX]\s+R?\$?\s*([\d.,]+)\s*$`
(`re.MULTILINE`) on one line: lazy name, shortest first. -/
def matchQtyXLine (l : List Char) : Option (List Char × ℕ × List Char) :=
  (List.range l.length).findSome? (fun i =>
    match qtyXAfterName (l.drop (i + 1)) with
    | some (q, tok) => some (l.take (i + 1), q, tok)
    | none => none)

/-- The tail of item pattern 3 after the lazy name:
`\s{2,}R?\$?\s*([\d.,]+)\s*$` (case-sensitive `R`). -/
def priceOnlyAfterName (l : List Char) : Option (List Char) :=
  if (l.takeWhile isPySpace).length < 2 then none
  else
    let r0 := l.dropWhile isPySpace
    let r1 := if r0.head? == some 'R' then r0.tail else r0
    let r2 := if r1.head? == some '$' then r1.tail else r1
    let r3 := r2.dropWhile isPySpace
    let tok := r3.takeWhile isMoneyChar
    if tok.isEmpty then none
    else if ((r3.dropWhile isMoneyChar).dropWhile isPySpace).isEmpty then some tok
    else none

/-- Item pattern 3 `^(.+?)\s{2,}R?\$?\s*([\d.,]+)\s*$` (`re.MULTILINE`)
on one line. -/
def matchPriceOnlyLine (l : List Char) : Option (List Char × List Char) :=
  (List.range l.length).findSome? (fun i =>
    (priceOnlyAfterName (l.drop (i + 1))).map (fun tok => (l.take (i + 1), tok)))

/-- Append an item and record its name as seen. -/
def addItem (st : List Item × List String) (nm : String) (q : ℕ) (p : ℚ) :
    List Item × List String :=
  (st.1 ++ [⟨nm, q, p⟩], st.2 ++ [nm])

/-- The shared body of item patterns 1 and 2:
`if price and name not in seen_lines: append; seen_lines.add(name)`
(`price` is falsy when the conversion failed or yielded `0.0`). -/
def stepQtyItem (st : List Item × List String) (nameRaw : List Char) (q : ℕ)
    (tok : List Char) : List Item × List String :=
  match parseBrazilianNumber tok with
  | some p =>
    if p != 0 && !(st.2.contains (String.mk (pyStrip nameRaw))) then
      addItem st (String.mk (pyStrip nameRaw)) q p
    else st
  | none => st

/-- `re.search(r"\d+\s*[xX]\s*$", name)`: the (stripped) name ends in
one or more digits, optional whitespace, `x`/`X`, optional whitespace. -/
def nxSuffix (l : List Char) : Bool :=
  match l.reverse.dropWhile isPySpace with
  | x :: r2 =>
    if x == 'x' || x == 'X' then
      match r2.dropWhile isPySpace with
      | d :: _ => d.isDigit
      | [] => false
    else false
  | [] => false

/-- The skip-word list of item pattern 3. -/
def SKIP_WORDS : List String :=
  ["total", "subtotal", "troco", "forma", "pgto", "pagamento", "data", "nf "]

/-- The body of item pattern 3: skip unparsable/zero prices, names
already shaped like a quantity line, names already seen, and names
containing a skip word; otherwise append with quantity 1. -/
def stepPriceOnly (st : List Item × List String) (nameRaw tok : List Char) :
    List Item × List String :=
  match parseBrazilianNumber tok with
  | some p =>
    if p == 0 then st
    else if nxSuffix (pyStrip nameRaw) then st
    else if st.2.contains (String.mk (pyStrip nameRaw))
        || SKIP_WORDS.any (fun w => isSub w.data (lowerL (pyStrip nameRaw))) then st
    else addItem st (String.mk (pyStrip nameRaw)) 1 p
  | none => st

/-- `extractor._extract_items`: the three pattern families in fixed
priority, sharing the `seen_lines` dedup state (first writer wins). -/
def extract_items (l : List Char) : List Item :=
  let st1 := (finditerProduto (l.length + 1) l).foldl
    (fun st g => stepQtyItem st g.1 g.2.1 g.2.2) ([], [])
  let lines := splitNL l
  let st2 := lines.foldl (fun st ln =>
    match matchQtyXLine ln with
    | some (nm, q, tok) => stepQtyItem st nm q tok
    | none => st) st1
  let st3 := lines.foldl (fun st ln =>
    match matchPriceOnlyLine ln with
    | some (nm, tok) => stepPriceOnly st nm tok
    | none => st) st2
  st3.1

/-- `sum(i["qty"] * i["unit_price"] for i in items)`. -/
def itemsSum (items : List Item) : ℚ :=
  (items.map (fun i => (i.qty : ℚ) * i.unit_price)).sum

/-- Python truthiness of the final `total or 0.0`. -/
def pyOrZero : Option ℚ → ℚ
  | none => 0
  | some q => if q == 0 then 0 else q

/-- The vendor label of the expense description: first non-blank line
of the raw body, else `"Despesa"`.  (`str.splitlines` is modelled as a
newline split: the receipts of this pipeline use `\n` terminators.) -/
def firstVendor (raw : List Char) : String :=
  match ((splitNL raw).map pyStrip).filter (fun s => !s.isEmpty) with
  | v :: _ => String.mk v
  | [] => "Despesa"

/-- `extractor._extract_with_regex`.  `today` abstracts the process
clock used by the date fallback. -/
def extract_with_regex (raw msg : List Char) (today : Date) : Transaction :=
  let combined := raw ++ '\n' :: msg
  let txType := detectType combined
  let total0 := extract_total raw
  let items := extract_items raw
  let total1 := if !items.isEmpty && total0 == none then some (itemsSum items) else total0
  { date := pyParseDate combined today
    total := pyOrZero total1
    items := items
    type := txType
    description :=
      if txType == "sale" then
        if items.isEmpty then "Venda" else "Venda de " ++ toString items.length ++ " item(s)"
      else "Compra em " ++ firstVendor raw
    raw_text := String.mk raw }

/-- `extractor.extract_fields` on the deterministic path (no OpenAI key
configured — the default; the LLM branch is external, spec section 6). -/
def extract_fields (raw msg : List Char) (today : Date) : Transaction :=
  extract_with_regex raw msg today

/-! ### Ledger (`ledger.py`)

The JSON file store is modelled as the list of entries it holds; every
mutation rewrites the whole list, so the functions below map the loaded
list to the saved one. -/

/-- A persisted ledger entry. -/
structure Entry where
  id : String
  timestamp : String
  date : String
  total : ℚ
  type : String
  category : String
  description : String
  items : List Item
deriving DecidableEq

/-- `ledger.add_entry`: build the entry from the transaction and the
category, append it, and save.  `idStr` and `timestamp` abstract
`uuid.uuid4()[:8]` and `datetime.now().isoformat()`. -/
def add_entry (store : List Entry) (t : Transaction) (category idStr timestamp : String) :
    List Entry × Entry :=
  let e : Entry := ⟨idStr, timestamp, t.date, t.total, t.type, category,
    t.description, t.items⟩
  (store ++ [e], e)

/-- Lexicographic (code-point) strict comparison of Python strings. -/
def lexLt : List Char → List Char → Bool
  | [], [] => false
  | [], _ :: _ => true
  | _ :: _, [] => false
  | a :: as, b :: bs => if a < b then true else if b < a then false else lexLt as bs

/-- Python `s <= t` on strings (total order, so `≤` is `not >`). -/
def lexLe (a b : List Char) : Bool :=
  !lexLt b a

/-- `ledger.get_entries`: filter by the start bound, then by the end
bound, both inclusive, comparing the ISO date strings; insertion order
is preserved. -/
def get_entries (store : List Entry) (startD endD : Option String) : List Entry :=
  let l1 := match startD with
    | some s => store.filter (fun e => lexLe s.data e.date.data)
    | none => store
  match endD with
  | some t => l1.filter (fun e => lexLe e.date.data t.data)
  | none => l1

/-- Leap-year days before year `y` (the proleptic Gregorian count used
by `datetime.date.toordinal`): day 1 is 0001-01-01. -/
def daysBeforeYear (y : ℕ) : ℕ :=
  365 * (y - 1) + (y - 1) / 4 - (y - 1) / 100 + (y - 1) / 400

/-- Days before month `m` in a year with leap flag `b`. -/
def cumDays (b : Bool) (m : ℕ) : ℕ :=
  let L : ℕ := if b then 1 else 0
  match m with
  | 1 => 0 | 2 => 31 | 3 => 59 + L | 4 => 90 + L | 5 => 120 + L | 6 => 151 + L
  | 7 => 181 + L | 8 => 212 + L | 9 => 243 + L | 10 => 273 + L | 11 => 304 + L
  | 12 => 334 + L
  | _ => 0

/-- `date.toordinal()`: 0001-01-01 is day 1. -/
def ordOf (dt : Date) : ℕ :=
  daysBeforeYear dt.year + cumDays (isLeap dt.year) dt.month + dt.day

/-- `date.weekday()`: Monday is 0 (0001-01-01, ordinal 1, is a Monday). -/
def weekdayOf (dt : Date) : ℕ :=
  (ordOf dt + 6) % 7

/-- Calendar predecessor (one day earlier). -/
def prevDay (dt : Date) : Date :=
  if 2 ≤ dt.day then ⟨dt.year, dt.month, dt.day - 1⟩
  else if 2 ≤ dt.month then ⟨dt.year, dt.month - 1, daysInMonth (isLeap dt.year) (dt.month - 1)⟩
  else ⟨dt.year - 1, 12, 31⟩

/-- Calendar successor (one day later). -/
def nextDay (dt : Date) : Date :=
  if dt.day < daysInMonth (isLeap dt.year) dt.month then ⟨dt.year, dt.month, dt.day + 1⟩
  else if dt.month < 12 then ⟨dt.year, dt.month + 1, 1⟩
  else ⟨dt.year + 1, 1, 1⟩

/-- `d - timedelta(days=k)`. -/
def subDays : Date → ℕ → Date
  | d, 0 => d
  | d, k + 1 => subDays (prevDay d) k

/-- `d + timedelta(days=k)`. -/
def addDays : Date → ℕ → Date
  | d, 0 => d
  | d, k + 1 => addDays (nextDay d) k

/-- `ref - timedelta(days=ref.weekday())`: the Monday of the week of
`ref`. -/
def mondayOf (ref : Date) : Date :=
  subDays ref (weekdayOf ref)

/-- `monday + timedelta(days=6)`: the following Sunday. -/
def sundayOf (ref : Date) : Date :=
  addDays (mondayOf ref) 6

/-- `ledger.get_week_entries`: delegate to `get_entries` with the ISO
forms of the Monday and Sunday of the week containing `ref` (the
reference date, `date.fromisoformat(reference_date)` or today's date). -/
def get_week_entries (store : List Entry) (ref : Date) : List Entry :=
  get_entries store (some (mondayOf ref).toISO) (some (sundayOf ref).toISO)

/-! ### Summary statistics (`ledger.summary_stats`), top-items part -/

/-- One `item_totals[name] = item_totals.get(name, 0.0) + v` step: a
Python dict update keeps the position of an existing key and appends a
new key at the end. -/
def updAssoc (acc : List (String × ℚ)) (n : String) (v : ℚ) : List (String × ℚ) :=
  if acc.any (fun p => p.1 == n) then
    acc.map (fun p => if p.1 == n then (p.1, p.2 + v) else p)
  else acc ++ [(n, v)]

/-- The `item_totals` accumulation of `ledger.summary_stats`: over every
item of every entry, keyed by name, accumulating `qty * unit_price`. -/
def itemTotalsOf (entries : List Entry) : List (String × ℚ) :=
  entries.foldl (fun acc e =>
    e.items.foldl (fun a it => updAssoc a it.name ((it.qty : ℚ) * it.unit_price)) acc) []

/-- Stable descending insertion (an element is placed before the first
element whose value it reaches, hence after all earlier elements of
equal value — the stability contract of Python `sorted`). -/
def insertDesc (x : String × ℚ) : List (String × ℚ) → List (String × ℚ)
  | [] => [x]
  | y :: ys => if y.2 ≤ x.2 then x :: y :: ys else y :: insertDesc x ys

/-- `sorted(item_totals.items(), key=lambda x: x[1], reverse=True)`:
Python `sorted` is stable, and with `reverse=True` it yields descending
values with equal-valued elements in their original order; this stable
insertion sort is the unique sequence with those properties. -/
def sortDescByVal (l : List (String × ℚ)) : List (String × ℚ) :=
  l.foldr insertDesc []

/-- The `top_items` field of `ledger.summary_stats` (name/total pairs):
the item totals sorted descending, truncated to 5. -/
def summaryTopItems (entries : List Entry) : List (String × ℚ) :=
  (sortDescByVal (itemTotalsOf entries)).take 5

/-! ### Receipt pipeline (`ocr.py`, `whatsapp_sim.process_receipt`) -/

/-- `ocr.extract_text_from_image`: raise `FileNotFoundError` when the
path is not a file; otherwise produce text.  `files` models the set of
existing image files and `ocrOut` the text read from an image (by
Tesseract when installed, else by the simulated-OCR fallback) — the
pipeline below is insensitive to which. -/
def extract_text_from_image (files : List String) (ocrOut : String → String)
    (p : String) : Except String String :=
  if files.contains p then .ok (ocrOut p) else .error ("Image not found: " ++ p)

/-- `whatsapp_sim.process_receipt` up to the ledger mutation: OCR, then
extraction, then categorization, then `add_entry`.  An exception raised
by any stage propagates (`Except.error`) before the store is touched;
on success the returned store is the input store with the single new
entry appended. -/
def process_receipt (files : List String) (ocrOut : String → String)
    (store : List Entry) (imagePath userMsg : String) (today : Date)
    (idStr timestamp : String) : Except String (List Entry × Entry) :=
  match extract_text_from_image files ocrOut imagePath with
  | .error e => .error e
  | .ok raw =>
    let tx := extract_fields raw.data userMsg.data today
    let cat := categorize tx
    .ok (add_entry store tx cat idStr timestamp)

/-! ### Spec-side definitions used to state the claims -/

/-- The keywords whose rule category is `"sales"` (spec: the revenue
rules). -/
def SALE_RULE_KEYWORDS : List String :=
  ["venda", "vendas", "sold", "sale", "receita", "revenue",
   "pagamento recebido", "payment received", "pix recebido"]

/-- The total fallback chain in the words of claim C2: a present and
parseable `TOTAL` money token wins; otherwise a parseable `Valor:` line;
otherwise the item sum; otherwise zero. -/
def c2ClaimTotal (raw : List Char) : ℚ :=
  match (searchTotal raw).bind parseBrazilianNumber with
  | some q => q
  | none =>
    match (searchValor raw).bind parseBrazilianNumber with
    | some q => q
    | none =>
      if (extract_items raw).isEmpty then 0 else itemsSum (extract_items raw)

/-- The amended total chain: when the `TOTAL` pattern matches, its parse
result is used and a parse failure falls through to the item sum (or
zero) directly, skipping the `Valor:` fallback; when it does not match,
a parseable `Valor:` line wins, else the item sum, else zero. -/
def c2AmendedTotal (raw : List Char) : ℚ :=
  let fallback := itemsSum (extract_items raw)
  match searchTotal raw with
  | some tok => (parseBrazilianNumber tok).getD fallback
  | none =>
    match searchValor raw with
    | some tok => (parseBrazilianNumber tok).getD fallback
    | none => fallback

/-- All triples matched by the date pattern at any position of the text
(used to state claim C3, which quantifies over every matching
substring). -/
def dateMatchesFrom : List Char → List (ℕ × ℕ × ℕ)
  | [] => []
  | c :: t =>
    (match matchDateAt (c :: t) with
     | some r => [r]
     | none => []) ++ dateMatchesFrom t

/-- Claim C3's hypothesis: some substring matches the date pattern and
forms a valid calendar date. -/
def existsValidDateMatch (l : List Char) : Bool :=
  (dateMatchesFrom l).any (fun r => decide (validYMD r.2.2 r.2.1 r.1))

/-- Claim C7's well-formedness predicate, in the words of the spec: the
stripped input begins with a verb of the fixed vocabulary
(case-insensitively), then whitespace, then an optional currency prefix
(`R`/`r`, optional `$`, or just `$`), optional whitespace, then the
monetary amount — a maximal non-empty run of `[\d.,]` characters that
converts to a number. -/
def QuickForm (text : String) : Prop :=
  ∃ vc w p sp tok rest, ∃ v ∈ QUICK_VERBS,
    pyStrip text.data = vc ++ (w ++ (p ++ (sp ++ (tok ++ rest)))) ∧
    lowerL vc = v.data ∧
    w ≠ [] ∧ (∀ c ∈ w, isPySpace c) ∧
    (p = [] ∨ p = ['R'] ∨ p = ['r'] ∨ p = ['$'] ∨ p = ['R', '$'] ∨ p = ['r', '$']) ∧
    (∀ c ∈ sp, isPySpace c) ∧
    tok ≠ [] ∧ (∀ c ∈ tok, isMoneyChar c) ∧
    (∀ c, rest.head? = some c → ¬ isMoneyChar c = true) ∧
    (quickAmount tok).isSome

/-- The items of all entries, in order (first-appearance order of item
names is taken over this sequence). -/
def flatItems (entries : List Entry) : List Item :=
  entries.foldr (fun e acc => e.items ++ acc) []

/-- Sum of `qty * unit_price` over the items of a sequence bearing a
given name. -/
def sumName (items : List Item) (n : String) : ℚ :=
  ((items.filter (fun it => it.name == n)).map
    (fun it => (it.qty : ℚ) * it.unit_price)).sum

/-- Index of the first item of a sequence bearing a given name. -/
def idxName (items : List Item) (n : String) : ℕ :=
  items.findIdx (fun it => it.name == n)

/-- Claim C6's accumulated total of one item name: the sum of
`qty * unit_price` over every item with that name across every entry. -/
def specNameTotal (entries : List Entry) (n : String) : ℚ :=
  sumName (flatItems entries) n

/-- Index of the first appearance of an item name across the input
entries. -/
def firstAppIdx (entries : List Entry) (n : String) : ℕ :=
  idxName (flatItems entries) n

/-! ## Helper lemmas -/

theorem findSome?_rule_mem {rules : List (String × String)} {text : List Char}
    {cat : String}
    (h : rules.findSome? (fun r => if isSub r.1.data text then some r.2 else none)
      = some cat) :
    ∃ r ∈ rules, r.2 = cat ∧ isSub r.1.data text = true := by
  induction rules with
  | nil => simp [List.findSome?] at h
  | cons hd tl ih =>
    rw [List.findSome?_cons] at h
    by_cases hs : isSub hd.1.data text = true
    · rw [if_pos hs] at h
      exact ⟨hd, List.mem_cons_self _ _, Option.some.inj h, hs⟩
    · rw [if_neg hs] at h
      obtain ⟨r, hr, h2, h3⟩ := ih h
      exact ⟨r, List.mem_cons_of_mem _ hr, h2, h3⟩

theorem sale_rule_keyword : ∀ r ∈ CATEGORY_RULES, r.2 = "sales" →
    r.1 ∈ SALE_RULE_KEYWORDS := by
  decide

/-! ## Claim C1 -/

/-- Claim C1 (counterexample): the rule walk does return `"sales"` for
an expense — an expense transaction whose description is `"venda"` is
categorized as `"sales"` by the first rule, refuting "walking the
keyword-to-category rules produces `"sales"` for no expense input". -/
theorem c1_counterexample :
    (Transaction.mk "" 0 [] "expense" "venda" "").type = "expense" ∧
      categorize (Transaction.mk "" 0 [] "expense" "venda" "") = "sales" := by
  constructor
  · rfl
  · decide

/-- Claim C1 (amended): for an expense transaction, the categorizer
returns `"sales"` only when one of the sale-mapped keywords occurs in
the searchable text; if none of them occurs, `"sales"` is never
produced. -/
theorem c1_expense_without_sale_keyword_not_sales (t : Transaction)
    (h1 : t.type ≠ "sale")
    (h2 : ∀ kw ∈ SALE_RULE_KEYWORDS, isSub kw.data (searchableText t) = false) :
    categorize t ≠ "sales" := by
  unfold categorize
  rw [if_neg (by simpa using h1)]
  cases hm : matchRules (searchableText t) with
  | none => decide
  | some c =>
    intro hc
    subst hc
    obtain ⟨r, hr, h3, h4⟩ := findSome?_rule_mem hm
    have h5 := sale_rule_keyword r hr h3
    rw [h2 r.1 h5] at h4
    exact Bool.false_ne_true h4

/-- Witness for the amended claim C1 at a concrete expense (description
`"aluguel"`, none of the sale keywords present). -/
theorem c1_witness :
    ((Transaction.mk "" 0 [] "expense" "aluguel" "").type ≠ "sale") ∧
      categorize (Transaction.mk "" 0 [] "expense" "aluguel" "") ≠ "sales" :=
  ⟨by decide, c1_expense_without_sale_keyword_not_sales _ (by decide) (by decide)⟩

/-! ## Claim C9 -/

/-- Claim C9: the quick entry `"gasto 50"` (an advertised expense form)
is categorized as `"transport"`, not `"other"`: rule matching is a
substring scan over the joined description and raw text, and the rule
`"gas" → "transport"` hits inside the verb `"gasto"` itself. -/
theorem c9_gasto_transport :
    (parseQuickEntry "gasto 50" "2026-01-15").map categorize = some "transport" ∧
      isSub "gas".data (searchableText (Transaction.mk "2026-01-15" 50 [] "expense"
        "Gasto" "gasto 50")) = true ∧
      parseQuickEntry "gasto 50" "2026-01-15" = some (Transaction.mk "2026-01-15" 50
        [] "expense" "Gasto" "gasto 50") := by
  refine ⟨?_, by decide, ?_⟩ <;> decide

/-! ## Claim C3 -/

/-- Claim C3 (counterexample): the text `"31/02/2026 01/01/2026"`
contains a substring matching the date pattern that forms a valid
calendar date (`01/01/2026`), yet extraction returns the clock fallback
(here `1999-12-31`), which is none of the matched valid dates — the
code validates only the *first* match. -/
theorem c3_counterexample :
    existsValidDateMatch "31/02/2026 01/01/2026".data = true ∧
      pyParseDate "31/02/2026 01/01/2026".data ⟨1999, 12, 31⟩ = "1999-12-31" ∧
      (∀ r ∈ dateMatchesFrom "31/02/2026 01/01/2026".data,
        validYMD r.2.2 r.2.1 r.1 → isoYMD r.2.2 r.2.1 r.1 ≠ "1999-12-31") :=
  ⟨by decide, by decide, by decide⟩

/-- Claim C3 (amended): the extracted date is the clock fallback unless
the *first* match of the date pattern is a valid calendar date, in
which case that first match is returned; a valid match that is not the
first does not prevent the fallback. -/
theorem c3_first_match_valid_date (text : List Char) (today : Date) (d m y : ℕ)
    (h1 : searchDate text = some (d, m, y)) (h2 : validYMD y m d) :
    pyParseDate text today = isoYMD y m d := by
  unfold pyParseDate
  rw [h1]
  exact if_pos h2

/-- Witness for the amended claim C3 at the concrete text
`"Data: 20/01/2026"`. -/
theorem c3_witness :
    searchDate "Data: 20/01/2026".data = some (20, 1, 2026) ∧
      pyParseDate "Data: 20/01/2026".data ⟨2000, 1, 1⟩ = isoYMD 2026 1 20 :=
  ⟨by decide, c3_first_match_valid_date _ _ _ _ _ (by decide) (by decide)⟩

/-! ## Claim C10 -/

theorem natOfDigits_foldl (b : List Char) (s : ℕ) :
    b.foldl (fun a c => 10 * a + (c.toNat - 48)) s
      = s * 10 ^ b.length + natOfDigits b := by
  induction b generalizing s with
  | nil => simp [natOfDigits]
  | cons c t ih =>
    rw [List.foldl_cons, ih]
    have h0 : natOfDigits (c :: t) = (c.toNat - 48) * 10 ^ t.length + natOfDigits t := by
      rw [natOfDigits, List.foldl_cons, ih]
      simp
    rw [h0, List.length_cons]
    ring

theorem natOfDigits_append (a b : List Char) :
    natOfDigits (a ++ b) = natOfDigits a * 10 ^ b.length + natOfDigits b := by
  rw [natOfDigits, List.foldl_append]
  rw [natOfDigits_foldl]
  rfl

theorem digit_not_dot {c : Char} (h : c.isDigit = true) : (c != '.') = true := by
  rcases eq_or_ne c '.' with rfl | hne
  · simp [Char.isDigit] at h
  · simpa using hne

theorem digit_map_comma {c : Char} (h : c.isDigit = true) :
    (if (c == ',') = true then '.' else c) = c := by
  rcases eq_or_ne c ',' with rfl | hne
  · simp [Char.isDigit] at h
  · simp [hne]

theorem map_id_on {l : List Char} {f : Char → Char} (h : ∀ c ∈ l, f c = c) :
    l.map f = l := by
  induction l with
  | nil => rfl
  | cons c t ih =>
    rw [List.map_cons, h c (List.mem_cons_self _ _),
      ih (fun x hx => h x (List.mem_cons_of_mem _ hx))]

theorem takeWhile_all {l : List Char} {p : Char → Bool} (h : ∀ c ∈ l, p c = true) :
    l.takeWhile p = l := by
  induction l with
  | nil => rfl
  | cons c t ih =>
    rw [List.takeWhile_cons, h c (List.mem_cons_self _ _)]
    simp [ih (fun x hx => h x (List.mem_cons_of_mem _ hx))]

theorem dropWhile_all {l : List Char} {p : Char → Bool} (h : ∀ c ∈ l, p c = true) :
    l.dropWhile p = [] := by
  induction l with
  | nil => rfl
  | cons c t ih =>
    rw [List.dropWhile_cons, h c (List.mem_cons_self _ _)]
    simp [ih (fun x hx => h x (List.mem_cons_of_mem _ hx))]

theorem filter_all {l : List Char} {p : Char → Bool} (h : ∀ c ∈ l, p c = true) :
    l.filter p = l := by
  induction l with
  | nil => rfl
  | cons c t ih =>
    rw [List.filter_cons, h c (List.mem_cons_self _ _)]
    simp [ih (fun x hx => h x (List.mem_cons_of_mem _ hx))]

/-- Claim C10: the quick-entry amount transform deletes every `'.'`
before converting `','`, so `"venda 1.5"` records a total of `15`, and
in general an all-digit amount `a.b` written with a dot records
`(a + b/10^k) * 10^k` where `k` is the number of digits after the dot
— the intended value scaled by `10^k`. -/
theorem c10_dot_scaling :
    (parseQuickEntry "venda 1.5" "2026-01-15").map Transaction.total = some 15 ∧
      (∀ a b : List Char, a ≠ [] → b ≠ [] →
        (∀ c ∈ a, c.isDigit = true) → (∀ c ∈ b, c.isDigit = true) →
        quickAmount (a ++ '.' :: b)
          = some (((natOfDigits a : ℚ) + (natOfDigits b : ℚ) / 10 ^ b.length)
              * 10 ^ b.length)) := by
  constructor
  · decide
  · intro a b ha hb hda hdb
    have hfa : (a ++ '.' :: b).filter (fun c => c != '.') = a ++ b := by
      rw [List.filter_append, List.filter_cons]
      have : (('.' : Char) != '.') = false := by decide
      rw [this]
      simp only [Bool.false_eq_true, if_false]
      rw [filter_all (fun c hc => digit_not_dot (hda c hc)),
        filter_all (fun c hc => digit_not_dot (hdb c hc))]
    have hmap : (a ++ b).map (fun c => if (c == ',') = true then '.' else c) = a ++ b := by
      refine map_id_on (fun c hc => ?_)
      rcases List.mem_append.1 hc with hc | hc
      · exact digit_map_comma (hda c hc)
      · exact digit_map_comma (hdb c hc)
    have hall : ∀ c ∈ a ++ b, c.isDigit = true := by
      intro c hc
      rcases List.mem_append.1 hc with hc | hc
      · exact hda c hc
      · exact hdb c hc
    have natOfDigits_nil : natOfDigits [] = 0 := rfl
    rw [quickAmount, hfa, hmap, floatOfClean]
    rw [if_pos ?_]
    · have hip : (a ++ b).takeWhile (fun c => c != '.') = a ++ b :=
        takeWhile_all (fun c hc => digit_not_dot (hall c hc))
      have hfp : (a ++ b).dropWhile (fun c => c != '.') = [] :=
        dropWhile_all (fun c hc => digit_not_dot (hall c hc))
      rw [hip, hfp]
      simp only [List.drop_nil, List.length_nil, pow_zero, mul_one, natOfDigits_nil,
        Nat.add_zero]
      rw [Rat.mkRat_one, natOfDigits_append]
      have h10 : ((10 : ℚ) ^ b.length) ≠ 0 := by positivity
      push_cast
      field_simp
    · rw [Bool.and_eq_true, Bool.and_eq_true]
      refine ⟨⟨?_, ?_⟩, ?_⟩
      · rw [List.all_eq_true]
        intro c hc
        simp [hall c hc]
      · rw [List.any_eq_true]
        obtain ⟨c, hc⟩ := List.exists_mem_of_ne_nil a ha
        exact ⟨c, List.mem_append_left _ hc, hall c (List.mem_append_left _ hc)⟩
      · have hcnt : (a ++ b).count '.' = 0 := by
          rw [List.count_eq_zero]
          intro hmem
          have hdig := hall '.' hmem
          simp [Char.isDigit] at hdig
        rw [decide_eq_true_eq]
        omega

/-- Witness for claim C10's universal part at `a = "1"`, `b = "5"`. -/
theorem c10_witness :
    quickAmount (['1'] ++ '.' :: ['5'])
      = some (((natOfDigits ['1'] : ℚ) + (natOfDigits ['5'] : ℚ) / 10 ^ (['5'] : List Char).length)
          * 10 ^ (['5'] : List Char).length) :=
  c10_dot_scaling.2 ['1'] ['5'] (by decide) (by decide) (by decide) (by decide)

/-! ## Claim C2 -/

/-- Claim C2 (counterexample): on `"Valor: 5,00 TOTAL: 1,2,3"` the
`TOTAL` pattern matches but its token `1,2,3` fails the money
conversion, and the code then returns no total at all (skipping the
parseable `Valor: 5,00` line and, with no items, yielding `0`) — while
the claimed chain produces `5`. -/
theorem c2_counterexample :
    (extract_with_regex "Valor: 5,00 TOTAL: 1,2,3".data [] ⟨2026, 1, 1⟩).total
        ≠ c2ClaimTotal "Valor: 5,00 TOTAL: 1,2,3".data ∧
      (extract_with_regex "Valor: 5,00 TOTAL: 1,2,3".data [] ⟨2026, 1, 1⟩).total = 0 ∧
      c2ClaimTotal "Valor: 5,00 TOTAL: 1,2,3".data = 5 :=
  ⟨by decide, by decide, by decide⟩

/-! ## Claim C4 -/

theorem inv_addItem {st : List Item × List String} {nm : String} {q : ℕ} {p : ℚ}
    (h1 : (st.1.map Item.name).Nodup) (h2 : ∀ n ∈ st.1.map Item.name, n ∈ st.2)
    (h3 : nm ∉ st.2) :
    ((addItem st nm q p).1.map Item.name).Nodup ∧
      ∀ n ∈ (addItem st nm q p).1.map Item.name, n ∈ (addItem st nm q p).2 := by
  unfold addItem
  constructor
  · rw [List.map_append, List.map_cons, List.map_nil, List.nodup_append]
    refine ⟨h1, List.nodup_singleton _, ?_⟩
    intro n hn hmem
    rw [List.mem_singleton] at hmem
    subst hmem
    exact h3 (h2 n hn)
  · intro n hn
    rw [List.map_append, List.map_cons, List.map_nil, List.mem_append] at hn
    rcases hn with hn | hn
    · exact List.mem_append_left _ (h2 n hn)
    · rw [List.mem_singleton] at hn
      subst hn
      exact List.mem_append_right _ (List.mem_singleton_self _)

theorem not_mem_of_contains_false {l : List String} {nm : String}
    (h : l.contains nm = false) : nm ∉ l := by
  intro hmem
  have hc : l.contains nm = true := by
    rw [List.contains_eq_any_beq, List.any_eq_true]
    exact ⟨nm, hmem, by simp⟩
  rw [h] at hc
  exact Bool.false_ne_true hc

theorem inv_stepQtyItem {st : List Item × List String} {nr : List Char} {q : ℕ}
    {tok : List Char}
    (h1 : (st.1.map Item.name).Nodup) (h2 : ∀ n ∈ st.1.map Item.name, n ∈ st.2) :
    (((stepQtyItem st nr q tok).1.map Item.name).Nodup ∧
      ∀ n ∈ (stepQtyItem st nr q tok).1.map Item.name, n ∈ (stepQtyItem st nr q tok).2) := by
  unfold stepQtyItem
  split
  · split
    · rename_i p hp hc
      refine inv_addItem h1 h2 (not_mem_of_contains_false ?_)
      rw [Bool.and_eq_true] at hc
      rcases hc with ⟨_, hnc⟩
      simpa using hnc
    · exact ⟨h1, h2⟩
  · exact ⟨h1, h2⟩

theorem inv_stepPriceOnly {st : List Item × List String} {nr tok : List Char}
    (h1 : (st.1.map Item.name).Nodup) (h2 : ∀ n ∈ st.1.map Item.name, n ∈ st.2) :
    (((stepPriceOnly st nr tok).1.map Item.name).Nodup ∧
      ∀ n ∈ (stepPriceOnly st nr tok).1.map Item.name, n ∈ (stepPriceOnly st nr tok).2) := by
  unfold stepPriceOnly
  split
  · split
    · exact ⟨h1, h2⟩
    · split
      · exact ⟨h1, h2⟩
      · split
        · exact ⟨h1, h2⟩
        · rename_i hc
          refine inv_addItem h1 h2 (not_mem_of_contains_false ?_)
          cases hcc : st.2.contains (String.mk (pyStrip nr)) with
          | false => rfl
          | true =>
            exact absurd (by rw [Bool.or_eq_true]; exact Or.inl hcc) hc
  · exact ⟨h1, h2⟩

theorem foldl_inv {α : Type} {P : List Item × List String → Prop}
    {f : List Item × List String → α → List Item × List String}
    (hf : ∀ st x, P st → P (f st x)) :
    ∀ (l : List α) (st : List Item × List String), P st → P (l.foldl f st) := by
  intro l
  induction l with
  | nil => intro st h; exact h
  | cons x t ih => intro st h; exact ih (f st x) (hf st x h)

/-- Claim C4: the extracted item list never contains two items with the
same trimmed name — a name captured by an earlier-priority pattern
family is never added again by a later one (the shared seen-set makes
the first writer win). -/
theorem c4_item_names_nodup (l : List Char) :
    ((extract_items l).map Item.name).Nodup := by
  unfold extract_items
  have hP1 : ∀ (st : List Item × List String) (g : List Char × ℕ × List Char),
      ((st.1.map Item.name).Nodup ∧ ∀ n ∈ st.1.map Item.name, n ∈ st.2) →
      (((stepQtyItem st g.1 g.2.1 g.2.2).1.map Item.name).Nodup ∧
        ∀ n ∈ (stepQtyItem st g.1 g.2.1 g.2.2).1.map Item.name,
          n ∈ (stepQtyItem st g.1 g.2.1 g.2.2).2) :=
    fun st g h => inv_stepQtyItem h.1 h.2
  have h1 := foldl_inv (P := fun st => (st.1.map Item.name).Nodup ∧
      ∀ n ∈ st.1.map Item.name, n ∈ st.2) hP1
      (finditerProduto (l.length + 1) l) ([], []) ⟨List.nodup_nil, by simp⟩
  have h2 := foldl_inv (P := fun st => (st.1.map Item.name).Nodup ∧
      ∀ n ∈ st.1.map Item.name, n ∈ st.2)
    (f := fun st ln =>
      match matchQtyXLine ln with
      | some (nm, q, tok) => stepQtyItem st nm q tok
      | none => st)
    (fun st ln h => by
      dsimp only
      cases hm : matchQtyXLine ln with
      | none => exact h
      | some g =>
        obtain ⟨nm, q, tok⟩ := g
        exact inv_stepQtyItem h.1 h.2)
    (splitNL l) _ h1
  have h3 := foldl_inv (P := fun st => (st.1.map Item.name).Nodup ∧
      ∀ n ∈ st.1.map Item.name, n ∈ st.2)
    (f := fun st ln =>
      match matchPriceOnlyLine ln with
      | some (nm, tok) => stepPriceOnly st nm tok
      | none => st)
    (fun st ln h => by
      dsimp only
      cases hm : matchPriceOnlyLine ln with
      | none => exact h
      | some g =>
        obtain ⟨nm, tok⟩ := g
        exact inv_stepPriceOnly h.1 h.2)
    (splitNL l) _ h2
  exact h3.1

/-! ## Claim C7 -/

theorem head?_dropWhile_not {p : Char → Bool} :
    ∀ (l : List Char) (c : Char), (l.dropWhile p).head? = some c → p c = false := by
  intro l
  induction l with
  | nil => intro c h; simp at h
  | cons a t ih =>
    intro c h
    rw [List.dropWhile_cons] at h
    by_cases hp : p a = true
    · rw [if_pos hp] at h
      exact ih c h
    · rw [if_neg hp] at h
      rw [List.head?_cons] at h
      cases Option.some.inj h
      exact Bool.not_eq_true _ |>.mp hp

theorem mem_takeWhile_pred {p : Char → Bool} {l : List Char} :
    ∀ c ∈ l.takeWhile p, p c = true := by
  induction l with
  | nil => intro c h; simp at h
  | cons a t ih =>
    intro c h
    rw [List.takeWhile_cons] at h
    by_cases hp : p a = true
    · rw [if_pos hp] at h
      rcases List.mem_cons.1 h with rfl | h2
      · exact hp
      · exact ih c h2
    · rw [if_neg hp] at h
      simp at h

theorem eq_cons_of_head?_some {l : List Char} {c : Char} (h : l.head? = some c) :
    l = c :: l.tail := by
  cases l with
  | nil => simp at h
  | cons a t =>
    rw [List.head?_cons] at h
    cases Option.some.inj h
    rfl

theorem quickTail_decomp {r3 tok desc : List Char}
    (h : quickTail r3 = some (tok, desc)) :
    ∃ sp rest, r3 = sp ++ (tok ++ rest) ∧ (∀ c ∈ sp, isPySpace c = true) ∧
      tok ≠ [] ∧ (∀ c ∈ tok, isMoneyChar c = true) ∧
      (∀ c, rest.head? = some c → ¬ isMoneyChar c = true) := by
  unfold quickTail at h
  by_cases he : ((r3.dropWhile isPySpace).takeWhile isMoneyChar).isEmpty = true
  · rw [if_pos he] at h
    exact absurd h (by simp)
  · rw [if_neg he] at h
    have htok : tok = (r3.dropWhile isPySpace).takeWhile isMoneyChar :=
      (Prod.mk.injEq .. |>.mp (Option.some.inj h)).1.symm
    refine ⟨r3.takeWhile isPySpace, (r3.dropWhile isPySpace).dropWhile isMoneyChar,
      ?_, fun c hc => mem_takeWhile_pred c hc, ?_, ?_, ?_⟩
    · rw [htok, List.takeWhile_append_dropWhile, List.takeWhile_append_dropWhile]
    · intro hnil
      rw [htok] at hnil
      rw [hnil] at he
      exact he rfl
    · intro c hc
      rw [htok] at hc
      exact mem_takeWhile_pred c hc
    · intro c hc
      rw [head?_dropWhile_not _ c hc]
      exact Bool.false_ne_true

theorem stripCurrency_decomp (r1 : List Char) :
    ∃ p, r1 = p ++ stripCurrencyPrefix r1 ∧
      (p = [] ∨ p = ['R'] ∨ p = ['r'] ∨ p = ['$'] ∨ p = ['R', '$'] ∨ p = ['r', '$']) := by
  unfold stripCurrencyPrefix
  by_cases h1 : (r1.head? == some 'R' || r1.head? == some 'r') = true
  · rw [if_pos h1]
    rcases Bool.or_eq_true .. |>.mp h1 with hh | hh
    · have hc : r1 = 'R' :: r1.tail := eq_cons_of_head?_some (eq_of_beq hh)
      by_cases h2 : (r1.tail.head? == some '$') = true
      · have hd : r1.tail = '$' :: r1.tail.tail := eq_cons_of_head?_some (eq_of_beq h2)
        rw [if_pos h2]
        exact ⟨['R', '$'], by rw [List.cons_append, List.singleton_append, ← hd, ← hc],
          by simp⟩
      · rw [if_neg h2]
        exact ⟨['R'], by rw [List.singleton_append, ← hc], by simp⟩
    · have hc : r1 = 'r' :: r1.tail := eq_cons_of_head?_some (eq_of_beq hh)
      by_cases h2 : (r1.tail.head? == some '$') = true
      · have hd : r1.tail = '$' :: r1.tail.tail := eq_cons_of_head?_some (eq_of_beq h2)
        rw [if_pos h2]
        exact ⟨['r', '$'], by rw [List.cons_append, List.singleton_append, ← hd, ← hc],
          by simp⟩
      · rw [if_neg h2]
        exact ⟨['r'], by rw [List.singleton_append, ← hc], by simp⟩
  · rw [if_neg h1]
    by_cases h2 : (r1.head? == some '$') = true
    · have hc : r1 = '$' :: r1.tail := eq_cons_of_head?_some (eq_of_beq h2)
      rw [if_pos h2]
      exact ⟨['$'], by rw [List.singleton_append, ← hc], by simp⟩
    · rw [if_neg h2]
      exact ⟨[], rfl, by simp⟩

theorem quickRest_decomp {l tok desc : List Char}
    (h : quickRestMatch l = some (tok, desc)) :
    ∃ w p sp rest, l = w ++ (p ++ (sp ++ (tok ++ rest))) ∧ w ≠ [] ∧
      (∀ c ∈ w, isPySpace c = true) ∧
      (p = [] ∨ p = ['R'] ∨ p = ['r'] ∨ p = ['$'] ∨ p = ['R', '$'] ∨ p = ['r', '$']) ∧
      (∀ c ∈ sp, isPySpace c = true) ∧ tok ≠ [] ∧ (∀ c ∈ tok, isMoneyChar c = true) ∧
      (∀ c, rest.head? = some c → ¬ isMoneyChar c = true) := by
  unfold quickRestMatch at h
  by_cases hw : (l.takeWhile isPySpace).isEmpty = true
  · rw [if_pos hw] at h
    exact absurd h (by simp)
  · rw [if_neg hw] at h
    obtain ⟨sp, rest, hsplit3, hsp, htne, htm, hrest⟩ := quickTail_decomp h
    obtain ⟨p, hsplit2, hp⟩ := stripCurrency_decomp (l.dropWhile isPySpace)
    refine ⟨l.takeWhile isPySpace, p, sp, rest, ?_, ?_,
      fun c hc => mem_takeWhile_pred c hc, hp, hsp, htne, htm, hrest⟩
    · rw [← hsplit3, ← hsplit2, List.takeWhile_append_dropWhile]
    · intro hnil
      rw [hnil] at hw
      exact hw rfl

theorem exists_of_findSome?_eq {α β : Type} {f : α → Option β} {l : List α} {b : β}
    (h : l.findSome? f = some b) : ∃ a ∈ l, f a = some b := by
  induction l with
  | nil => simp [List.findSome?] at h
  | cons hd tl ih =>
    rw [List.findSome?_cons] at h
    cases hf : f hd with
    | some c =>
      rw [hf] at h
      simp only at h
      rw [h] at hf
      exact ⟨hd, List.mem_cons_self _ _, hf⟩
    | none =>
      rw [hf] at h
      obtain ⟨a, ha, he⟩ := ih h
      exact ⟨a, List.mem_cons_of_mem _ ha, he⟩

theorem quickVerb_decomp {l : List Char} {v : String} {tok desc : List Char}
    (h : quickVerbMatch l = some (v, tok, desc)) :
    v ∈ QUICK_VERBS ∧ lowerL (l.take v.length) = v.data ∧
      quickRestMatch (l.drop v.length) = some (tok, desc) := by
  unfold quickVerbMatch at h
  obtain ⟨v', hv', hf⟩ := exists_of_findSome?_eq h
  by_cases hc : (lowerL (l.take v'.length) == v'.data) = true
  · rw [if_pos hc] at hf
    cases hq : quickRestMatch (l.drop v'.length) with
    | none =>
      rw [hq] at hf
      exact absurd hf (by simp)
    | some pr =>
      obtain ⟨p1, p2⟩ := pr
      rw [hq] at hf
      simp only [Option.map_some', Option.some.injEq, Prod.mk.injEq] at hf
      obtain ⟨rfl, rfl, rfl⟩ := hf
      exact ⟨hv', eq_of_beq hc, hq⟩
  · rw [if_neg hc] at hf
    exact absurd hf (by simp)

/-- Claim C7: the quick entry `"sale 85 custom cake order"` produces a
sale of 85 with description `"custom cake order"`, empty items and the
clock date; and any input whose stripped text does not begin with a
vocabulary verb followed by a monetary amount yields no transaction —
stated as the contrapositive: a produced transaction forces the
`QuickForm` shape. -/
theorem c7_quick_entry :
    parseQuickEntry "sale 85 custom cake order" "2026-02-03"
        = some (Transaction.mk "2026-02-03" 85 [] "sale" "custom cake order"
            "sale 85 custom cake order") ∧
      (∀ (text todayIso : String) (tx : Transaction),
        parseQuickEntry text todayIso = some tx → QuickForm text) := by
  constructor
  · decide
  · intro text todayIso tx h
    unfold parseQuickEntry at h
    cases hm : quickVerbMatch (pyStrip text.data) with
    | none =>
      rw [hm] at h
      exact absurd h (by simp)
    | some g =>
      obtain ⟨v, tok, drest⟩ := g
      rw [hm] at h
      dsimp only at h
      cases hq : quickAmount tok with
      | none =>
        rw [hq] at h
        exact absurd h (by simp)
      | some amt =>
        obtain ⟨hv, hlow, hrest⟩ := quickVerb_decomp hm
        obtain ⟨w, p, sp, rest, hsplit, hwne, hwsp, hp, hsp, htne, htm, hrh⟩ :=
          quickRest_decomp hrest
        refine ⟨(pyStrip text.data).take v.length, w, p, sp, tok, rest, v, hv,
          ?_, hlow, hwne, hwsp, hp, hsp, htne, htm, hrh, by rw [hq]; rfl⟩
        rw [← hsplit, List.take_append_drop]

/-- Witness for claim C7's universal part at the concrete scenario
input. -/
theorem c7_witness : QuickForm "sale 85 custom cake order" :=
  c7_quick_entry.2 "sale 85 custom cake order" "2026-02-03"
    (Transaction.mk "2026-02-03" 85 [] "sale" "custom cake order"
      "sale 85 custom cake order") (by decide)

/-! ## Claim C8 -/

theorem contains_eq_false_of_not_mem {l : List String} {s : String} (h : s ∉ l) :
    l.contains s = false := by
  cases hc : l.contains s with
  | false => rfl
  | true => exact absurd (List.elem_iff.mp hc) h

/-- Claim C8: receipt processing mutates the ledger atomically — when
the image path does not exist, OCR raises before any mutation and the
pipeline propagates the error with the store untouched; when the
pipeline completes, the resulting store is exactly the input store with
the one new entry appended. -/
theorem c8_receipt_atomicity (files : List String) (ocrOut : String → String)
    (store : List Entry) (imagePath userMsg : String) (today : Date)
    (idStr timestamp : String) :
    (imagePath ∉ files →
      process_receipt files ocrOut store imagePath userMsg today idStr timestamp
        = .error ("Image not found: " ++ imagePath)) ∧
      (∀ (store2 : List Entry) (entry : Entry),
        process_receipt files ocrOut store imagePath userMsg today idStr timestamp
          = .ok (store2, entry) → store2 = store ++ [entry]) := by
  constructor
  · intro hnf
    unfold process_receipt extract_text_from_image
    rw [if_neg (by rw [contains_eq_false_of_not_mem hnf]; exact Bool.false_ne_true)]
  · intro store2 entry h
    unfold process_receipt extract_text_from_image at h
    by_cases hf : (files.contains imagePath) = true
    · rw [if_pos hf] at h
      dsimp only at h
      unfold add_entry at h
      simp only [Except.ok.injEq, Prod.mk.injEq] at h
      obtain ⟨h1, h2⟩ := h
      rw [← h1, ← h2]
    · rw [if_neg hf] at h
      exact absurd h (by simp)

/-- Witness for claim C8: a missing image path on an empty file system
yields the error and, on an existing path with empty OCR text, exactly
one entry is appended. -/
theorem c8_witness :
    process_receipt [] (fun _ => "") [] "missing.png" "" ⟨2026, 1, 1⟩ "id" "ts"
        = .error ("Image not found: " ++ "missing.png") ∧
      ([Entry.mk "id0" "ts0" "2026-01-05" 0 "expense" "other" "Compra em Despesa" []]
        : List Entry)
        = [] ++ [Entry.mk "id0" "ts0" "2026-01-05" 0 "expense" "other"
            "Compra em Despesa" []] :=
  ⟨(c8_receipt_atomicity [] (fun _ => "") [] "missing.png" "" ⟨2026, 1, 1⟩ "id" "ts").1
      (by decide),
    (c8_receipt_atomicity ["a.png"] (fun _ => "") [] "a.png" "" ⟨2026, 1, 5⟩ "id0"
        "ts0").2
      [Entry.mk "id0" "ts0" "2026-01-05" 0 "expense" "other" "Compra em Despesa" []]
      (Entry.mk "id0" "ts0" "2026-01-05" 0 "expense" "other" "Compra em Despesa" [])
      (by rfl)⟩

/-- Claim C2 (amended): the extracted total follows the amended chain —
a matched and parseable `TOTAL` token wins (even against a disagreeing
item sum); a matched but unparseable `TOTAL` token skips the `Valor:`
fallback and falls through to the item sum (or zero); with no `TOTAL`
match, a parseable `Valor:` line wins, else the item sum, else zero. -/
theorem c2_total_fallback_chain_amended (raw msg : List Char) (today : Date) :
    (extract_with_regex raw msg today).total = c2AmendedTotal raw := by
  have hAm : c2AmendedTotal raw
      = (extract_total raw).getD (itemsSum (extract_items raw)) := by
    unfold c2AmendedTotal extract_total
    cases h1 : searchTotal raw with
    | some tok => rfl
    | none =>
      cases h2 : searchValor raw with
      | some tok => rfl
      | none => rfl
  rw [hAm]
  dsimp only [extract_with_regex]
  cases h0 : extract_total raw with
  | some q =>
    have hb : ((some q : Option ℚ) == none) = false := rfl
    rw [hb, Bool.and_false]
    simp only [Bool.false_eq_true, if_false]
    show pyOrZero (some q) = (some q).getD (itemsSum (extract_items raw))
    unfold pyOrZero
    dsimp only
    by_cases hq : (q == 0) = true
    · rw [if_pos hq, Option.getD_some, eq_of_beq hq]
    · rw [if_neg hq, Option.getD_some]
  | none =>
    have hb : ((none : Option ℚ) == none) = true := rfl
    rw [hb, Bool.and_true]
    by_cases he : (extract_items raw).isEmpty = true
    · rw [he]
      simp only [Bool.not_true, Bool.false_eq_true, if_false]
      show pyOrZero none = (none : Option ℚ).getD (itemsSum (extract_items raw))
      rw [List.isEmpty_iff.mp he]
      rfl
    · rw [Bool.not_eq_true] at he
      rw [he]
      simp only [Bool.not_false, if_true]
      show pyOrZero (some (itemsSum (extract_items raw)))
        = (none : Option ℚ).getD (itemsSum (extract_items raw))
      unfold pyOrZero
      dsimp only
      rw [Option.getD_none]
      by_cases hs : (itemsSum (extract_items raw) == 0) = true
      · rw [if_pos hs, eq_of_beq hs]
      · rw [if_neg hs]

/-! ## Claim C6 -/

theorem flatItems_cons (e : Entry) (tl : List Entry) :
    flatItems (e :: tl) = e.items ++ flatItems tl := rfl

theorem itemTotalsOf_eq_flat (entries : List Entry) :
    itemTotalsOf entries = (flatItems entries).foldl
      (fun a it => updAssoc a it.name ((it.qty : ℚ) * it.unit_price)) [] := by
  suffices h : ∀ (es : List Entry) (acc : List (String × ℚ)),
      es.foldl (fun acc e => e.items.foldl
        (fun a it => updAssoc a it.name ((it.qty : ℚ) * it.unit_price)) acc) acc
        = (flatItems es).foldl
          (fun a it => updAssoc a it.name ((it.qty : ℚ) * it.unit_price)) acc from
    h entries []
  intro es
  induction es with
  | nil => intro acc; rfl
  | cons e tl ih =>
    intro acc
    rw [List.foldl_cons, ih, flatItems_cons, List.foldl_append]

theorem sumName_append_one (l : List Item) (it : Item) (m : String) :
    sumName (l ++ [it]) m
      = if it.name = m then sumName l m + (it.qty : ℚ) * it.unit_price
        else sumName l m := by
  unfold sumName
  rw [List.filter_append, List.map_append, List.sum_append]
  by_cases h : it.name = m
  · rw [if_pos h]
    simp [List.filter_cons, h]
  · rw [if_neg h]
    simp [List.filter_cons, h]

theorem sumName_zero_of_not_mem {l : List Item} {m : String}
    (h : ∀ x ∈ l, x.name ≠ m) : sumName l m = 0 := by
  unfold sumName
  have hf : l.filter (fun x => x.name == m) = [] := by
    rw [List.filter_eq_nil_iff]
    intro x hx
    simpa using h x hx
  rw [hf]
  rfl

theorem idxName_lt_length {l : List Item} {m : String} (h : ∃ x ∈ l, x.name = m) :
    idxName l m < l.length := by
  apply List.findIdx_lt_length_of_exists
  obtain ⟨x, hx, hn⟩ := h
  exact ⟨x, hx, beq_iff_eq.mpr hn⟩

theorem idxName_append_left {l1 : List Item} (l2 : List Item) {m : String}
    (h : ∃ x ∈ l1, x.name = m) : idxName (l1 ++ l2) m = idxName l1 m := by
  unfold idxName
  have hlt : l1.findIdx (fun x => x.name == m) < l1.length := idxName_lt_length h
  rw [List.findIdx_append, if_pos hlt]

theorem idxName_append_new {l1 : List Item} {it : Item}
    (hnot : ∀ x ∈ l1, x.name ≠ it.name) :
    idxName (l1 ++ [it]) it.name = l1.length := by
  unfold idxName
  have hfull : l1.findIdx (fun x => x.name == it.name) = l1.length :=
    List.findIdx_eq_length_of_false (fun x hx => by
      simpa using hnot x hx)
  rw [List.findIdx_append, hfull, if_neg (lt_irrefl _), List.findIdx_cons]
  simp

theorem upd_fst (p : String × ℚ) (n : String) (v : ℚ) :
    (if p.1 == n then (p.1, p.2 + v) else p).1 = p.1 := by
  by_cases h : (p.1 == n) = true
  · rw [if_pos h]
  · rw [if_neg h]

theorem updAssoc_inv {acc : List (String × ℚ)} {processed : List Item} (it : Item)
    (h1 : ∀ pr ∈ acc, pr.2 = sumName processed pr.1)
    (h2 : ∀ pr ∈ acc, ∃ x ∈ processed, x.name = pr.1)
    (h3 : ∀ x ∈ processed, ∃ pr ∈ acc, pr.1 = x.name)
    (h4 : acc.Pairwise (fun a b => idxName processed a.1 < idxName processed b.1)) :
    (∀ pr ∈ updAssoc acc it.name ((it.qty : ℚ) * it.unit_price),
        pr.2 = sumName (processed ++ [it]) pr.1) ∧
      (∀ pr ∈ updAssoc acc it.name ((it.qty : ℚ) * it.unit_price),
        ∃ x ∈ processed ++ [it], x.name = pr.1) ∧
      (∀ x ∈ processed ++ [it],
        ∃ pr ∈ updAssoc acc it.name ((it.qty : ℚ) * it.unit_price), pr.1 = x.name) ∧
      (updAssoc acc it.name ((it.qty : ℚ) * it.unit_price)).Pairwise
        (fun a b => idxName (processed ++ [it]) a.1 < idxName (processed ++ [it]) b.1) := by
  have hidx : ∀ pr ∈ acc, idxName (processed ++ [it]) pr.1 = idxName processed pr.1 :=
    fun pr hpr => idxName_append_left _ (h2 pr hpr)
  unfold updAssoc
  by_cases hc : (acc.any (fun p => p.1 == it.name)) = true
  · rw [if_pos hc]
    have hex : ∃ pr ∈ acc, pr.1 = it.name := by
      obtain ⟨pr, hpr, hb⟩ := List.any_eq_true.1 hc
      exact ⟨pr, hpr, eq_of_beq hb⟩
    refine ⟨?_, ?_, ?_, ?_⟩
    · intro pr' hpr'
      obtain ⟨pr, hpr, rfl⟩ := List.mem_map.1 hpr'
      try dsimp only
      rw [upd_fst]
      by_cases hk : (pr.1 == it.name) = true
      · rw [if_pos hk]
        show pr.2 + (it.qty : ℚ) * it.unit_price = sumName (processed ++ [it]) pr.1
        rw [sumName_append_one, if_pos (eq_of_beq hk).symm, h1 pr hpr]
      · rw [if_neg hk]
        rw [sumName_append_one, if_neg (fun hh => hk (beq_iff_eq.mpr hh.symm))]
        exact h1 pr hpr
    · intro pr' hpr'
      obtain ⟨pr, hpr, rfl⟩ := List.mem_map.1 hpr'
      obtain ⟨x, hx, hxn⟩ := h2 pr hpr
      refine ⟨x, List.mem_append_left _ hx, ?_⟩
      dsimp only
      rw [upd_fst]
      exact hxn
    · intro x hx
      rcases List.mem_append.1 hx with hx' | hx'
      · obtain ⟨pr, hpr, hpr1⟩ := h3 x hx'
        refine ⟨_, List.mem_map_of_mem _ hpr, ?_⟩
        dsimp only
        rw [upd_fst]
        exact hpr1
      · rw [List.mem_singleton] at hx'
        subst hx'
        obtain ⟨pr, hpr, hpr1⟩ := hex
        refine ⟨_, List.mem_map_of_mem _ hpr, ?_⟩
        dsimp only
        rw [upd_fst]
        exact hpr1
    · rw [List.pairwise_map]
      refine List.Pairwise.imp_of_mem ?_ h4
      intro a b ha hb hab
      dsimp only
      rw [upd_fst, upd_fst, hidx a ha, hidx b hb]
      exact hab
  · rw [if_neg hc]
    have hnot : ∀ pr ∈ acc, pr.1 ≠ it.name := by
      intro pr hpr heq
      exact hc (List.any_eq_true.2 ⟨pr, hpr, beq_iff_eq.mpr heq⟩)
    have hpnot : ∀ x ∈ processed, x.name ≠ it.name := by
      intro x hx heq
      obtain ⟨pr, hpr, hpr1⟩ := h3 x hx
      exact hnot pr hpr (hpr1.trans heq)
    refine ⟨?_, ?_, ?_, ?_⟩
    · intro pr' hpr'
      rcases List.mem_append.1 hpr' with hpr | hpr
      · rw [sumName_append_one, if_neg (fun hh => hnot pr' hpr hh.symm)]
        exact h1 pr' hpr
      · rw [List.mem_singleton] at hpr
        subst hpr
        show (it.qty : ℚ) * it.unit_price = sumName (processed ++ [it]) it.name
        rw [sumName_append_one, if_pos rfl, sumName_zero_of_not_mem hpnot, zero_add]
    · intro pr' hpr'
      rcases List.mem_append.1 hpr' with hpr | hpr
      · obtain ⟨x, hx, hxn⟩ := h2 pr' hpr
        exact ⟨x, List.mem_append_left _ hx, hxn⟩
      · rw [List.mem_singleton] at hpr
        subst hpr
        exact ⟨it, List.mem_append_right _ (List.mem_singleton_self _), rfl⟩
    · intro x hx
      rcases List.mem_append.1 hx with hx' | hx'
      · obtain ⟨pr, hpr, hpr1⟩ := h3 x hx'
        exact ⟨pr, List.mem_append_left _ hpr, hpr1⟩
      · rw [List.mem_singleton] at hx'
        refine ⟨(it.name, (it.qty : ℚ) * it.unit_price),
          List.mem_append_right _ (List.mem_singleton_self _), ?_⟩
        rw [hx']
    · rw [List.pairwise_append]
      refine ⟨?_, List.pairwise_singleton _ _, ?_⟩
      · refine List.Pairwise.imp_of_mem ?_ h4
        intro a b ha hb hab
        rw [hidx a ha, hidx b hb]
        exact hab
      · intro a ha b hb
        rw [List.mem_singleton] at hb
        subst hb
        show idxName (processed ++ [it]) a.1
          < idxName (processed ++ [it]) (it.name, (it.qty : ℚ) * it.unit_price).1
        rw [hidx a ha, idxName_append_new hpnot]
        exact idxName_lt_length (h2 a ha)

theorem updFold_inv : ∀ (rest processed : List Item) (acc : List (String × ℚ)),
    (∀ pr ∈ acc, pr.2 = sumName processed pr.1) →
    (∀ pr ∈ acc, ∃ x ∈ processed, x.name = pr.1) →
    (∀ x ∈ processed, ∃ pr ∈ acc, pr.1 = x.name) →
    acc.Pairwise (fun a b => idxName processed a.1 < idxName processed b.1) →
    ((∀ pr ∈ rest.foldl (fun a it => updAssoc a it.name
        ((it.qty : ℚ) * it.unit_price)) acc, pr.2 = sumName (processed ++ rest) pr.1) ∧
      (∀ pr ∈ rest.foldl (fun a it => updAssoc a it.name
        ((it.qty : ℚ) * it.unit_price)) acc, ∃ x ∈ processed ++ rest, x.name = pr.1) ∧
      (∀ x ∈ processed ++ rest, ∃ pr ∈ rest.foldl (fun a it => updAssoc a it.name
        ((it.qty : ℚ) * it.unit_price)) acc, pr.1 = x.name) ∧
      (rest.foldl (fun a it => updAssoc a it.name
        ((it.qty : ℚ) * it.unit_price)) acc).Pairwise
        (fun a b => idxName (processed ++ rest) a.1 < idxName (processed ++ rest) b.1)) := by
  intro rest
  induction rest with
  | nil =>
    intro processed acc h1 h2 h3 h4
    rw [List.foldl_nil, List.append_nil]
    exact ⟨h1, h2, h3, h4⟩
  | cons it rest' ih =>
    intro processed acc h1 h2 h3 h4
    rw [List.foldl_cons]
    have hstep := updAssoc_inv it h1 h2 h3 h4
    have happ : processed ++ it :: rest' = (processed ++ [it]) ++ rest' := by
      rw [List.append_assoc, List.singleton_append]
    rw [happ]
    exact ih (processed ++ [it]) _ hstep.1 hstep.2.1 hstep.2.2.1 hstep.2.2.2

theorem mem_insertDesc {x z : String × ℚ} : ∀ {l : List (String × ℚ)},
    z ∈ insertDesc x l ↔ z = x ∨ z ∈ l := by
  intro l
  induction l with
  | nil => simp [insertDesc]
  | cons y ys ih =>
    rw [insertDesc]
    by_cases h : y.2 ≤ x.2
    · rw [if_pos h]
      simp only [List.mem_cons]
    · rw [if_neg h]
      simp only [List.mem_cons, ih]
      tauto

theorem insertDesc_pairwise {f : String → ℕ} {x : String × ℚ} :
    ∀ {l : List (String × ℚ)},
    l.Pairwise (fun a b => b.2 < a.2 ∨ (a.2 = b.2 ∧ f a.1 < f b.1)) →
    (∀ y ∈ l, f x.1 < f y.1) →
    (insertDesc x l).Pairwise (fun a b => b.2 < a.2 ∨ (a.2 = b.2 ∧ f a.1 < f b.1)) := by
  intro l
  induction l with
  | nil => intro _ _; exact List.pairwise_singleton _ _
  | cons y ys ih =>
    intro hp hx
    rw [List.pairwise_cons] at hp
    obtain ⟨hy, hys⟩ := hp
    rw [insertDesc]
    by_cases h : y.2 ≤ x.2
    · rw [if_pos h]
      rw [List.pairwise_cons]
      constructor
      · intro z hz
        have hz2 : z.2 ≤ x.2 := by
          rcases List.mem_cons.1 hz with rfl | hz'
          · exact h
          · rcases hy z hz' with h' | ⟨h', _⟩
            · exact le_trans (le_of_lt h') h
            · exact le_trans (le_of_eq h'.symm) h
        rcases lt_or_eq_of_le hz2 with h' | h'
        · exact Or.inl h'
        · exact Or.inr ⟨h'.symm, hx z hz⟩
      · rw [List.pairwise_cons]
        exact ⟨hy, hys⟩
    · rw [if_neg h]
      rw [List.pairwise_cons]
      constructor
      · intro z hz
        rcases mem_insertDesc.1 hz with rfl | hz'
        · exact Or.inl (lt_of_not_le h)
        · exact hy z hz'
      · exact ih hys (fun z hz => hx z (List.mem_cons_of_mem _ hz))

theorem mem_sortDesc {z : String × ℚ} : ∀ {l : List (String × ℚ)},
    z ∈ sortDescByVal l ↔ z ∈ l := by
  intro l
  induction l with
  | nil => simp [sortDescByVal]
  | cons x xs ih =>
    show z ∈ insertDesc x (sortDescByVal xs) ↔ _
    rw [mem_insertDesc, ih, List.mem_cons]

theorem sortDesc_pairwise {f : String → ℕ} : ∀ {l : List (String × ℚ)},
    l.Pairwise (fun a b => f a.1 < f b.1) →
    (sortDescByVal l).Pairwise
      (fun a b => b.2 < a.2 ∨ (a.2 = b.2 ∧ f a.1 < f b.1)) := by
  intro l
  induction l with
  | nil => intro _; exact List.Pairwise.nil
  | cons x xs ih =>
    intro hp
    rw [List.pairwise_cons] at hp
    show (insertDesc x (sortDescByVal xs)).Pairwise _
    exact insertDesc_pairwise (ih hp.2) (fun y hy => hp.1 y (mem_sortDesc.1 hy))

/-- Claim C6: `top_items` holds at most 5 name/total pairs; each name's
total accumulates `qty * unit_price` across every item of every entry;
and the list is descending by total with ties broken by the name's
first-appearance order across the input sequence. -/
theorem c6_top_items (entries : List Entry) :
    (summaryTopItems entries).length ≤ 5 ∧
      (∀ p ∈ summaryTopItems entries, p.2 = specNameTotal entries p.1) ∧
      (summaryTopItems entries).Pairwise (fun a b =>
        b.2 < a.2 ∨ (a.2 = b.2 ∧ firstAppIdx entries a.1 < firstAppIdx entries b.1)) := by
  have hinv := updFold_inv (flatItems entries) [] [] (by simp) (by simp) (by simp)
    List.Pairwise.nil
  rw [List.nil_append] at hinv
  obtain ⟨hsum, _, _, hpw⟩ := hinv
  have hTot := itemTotalsOf_eq_flat entries
  refine ⟨List.length_take_le .., ?_, ?_⟩
  · intro p hp
    have hp1 : p ∈ sortDescByVal (itemTotalsOf entries) :=
      (List.take_sublist _ _).subset hp
    have hp2 : p ∈ itemTotalsOf entries := mem_sortDesc.1 hp1
    rw [hTot] at hp2
    exact hsum p hp2
  · refine List.Pairwise.sublist (List.take_sublist _ _) ?_
    apply sortDesc_pairwise (f := fun n => firstAppIdx entries n)
    rw [hTot]
    exact hpw

/-! ## Claim C5 -/

theorem nat_lt_split {k : ℕ} (hk : 0 < k) (a b : ℕ) :
    a < b ↔ (a / k < b / k ∨ (a / k = b / k ∧ a % k < b % k)) := by
  constructor
  · intro h
    rcases Nat.lt_or_ge (a / k) (b / k) with h1 | h1
    · exact Or.inl h1
    have h3 : a / k = b / k :=
      le_antisymm (Nat.div_le_div_right (Nat.le_of_lt h)) h1
    refine Or.inr ⟨h3, ?_⟩
    have ha := Nat.div_add_mod a k
    have hb := Nat.div_add_mod b k
    have hab : k * (a / k) + a % k < k * (b / k) + b % k := by
      rw [ha, hb]; exact h
    rw [h3] at hab
    exact Nat.lt_of_add_lt_add_left hab
  · intro h
    rcases h with h | ⟨h1, h2⟩
    · calc a < k * (a / k) + k := by
            have := Nat.mod_lt a hk
            have := Nat.div_add_mod a k
            omega
        _ = k * (a / k + 1) := by ring
        _ ≤ k * (b / k) := Nat.mul_le_mul_left k h
        _ ≤ b := by
            have := Nat.div_add_mod b k
            omega
    · have ha := Nat.div_add_mod a k
      have hb := Nat.div_add_mod b k
      rw [← ha, ← hb, h1]
      exact Nat.add_lt_add_left h2 _

theorem padNat_length : ∀ (n v : ℕ), (padNat n v).length = n := by
  intro n
  induction n with
  | zero => intro v; rfl
  | succ m ih =>
    intro v
    rw [padNat, List.length_cons, ih]

theorem digitChar_lt_iff : ∀ x < 10, ∀ y < 10,
    ((digitChar x < digitChar y) ↔ x < y) := by decide

theorem digitChar_inj : ∀ x < 10, ∀ y < 10,
    ((digitChar x = digitChar y) ↔ x = y) := by decide

theorem lexLt_padNat : ∀ (n a b : ℕ), a < 10 ^ n → b < 10 ^ n →
    (lexLt (padNat n a) (padNat n b) = true ↔ a < b) := by
  intro n
  induction n with
  | zero =>
    intro a b ha hb
    simp only [pow_zero, Nat.lt_one_iff] at ha hb
    subst ha
    subst hb
    simp [padNat, lexLt]
  | succ m ih =>
    intro a b ha hb
    have h10 : (0 : ℕ) < 10 ^ m := Nat.pos_pow_of_pos m (by omega)
    have hda : a / 10 ^ m < 10 := by
      rw [Nat.div_lt_iff_lt_mul h10]
      rw [pow_succ] at ha
      omega
    have hdb : b / 10 ^ m < 10 := by
      rw [Nat.div_lt_iff_lt_mul h10]
      rw [pow_succ] at hb
      omega
    rw [padNat, padNat, lexLt]
    have hsplit := nat_lt_split h10 a b
    by_cases h1 : digitChar (a / 10 ^ m) < digitChar (b / 10 ^ m)
    · rw [if_pos h1]
      have hdd : a / 10 ^ m < b / 10 ^ m := (digitChar_lt_iff _ hda _ hdb).mp h1
      constructor
      · intro _
        rw [hsplit]
        exact Or.inl hdd
      · intro _
        rfl
    · rw [if_neg h1]
      by_cases h2 : digitChar (b / 10 ^ m) < digitChar (a / 10 ^ m)
      · rw [if_pos h2]
        have hdd : b / 10 ^ m < a / 10 ^ m := (digitChar_lt_iff _ hdb _ hda).mp h2
        constructor
        · intro hff
          exact absurd hff (by simp)
        · intro hab
          rw [hsplit] at hab
          rcases hab with hh | ⟨hh, _⟩
          · omega
          · omega
      · rw [if_neg h2]
        have heq : a / 10 ^ m = b / 10 ^ m := by
          rcases lt_trichotomy (digitChar (a / 10 ^ m)) (digitChar (b / 10 ^ m))
            with hlt | heq | hgt
          · exact absurd hlt h1
          · exact (digitChar_inj _ hda _ hdb).mp heq
          · exact absurd hgt h2
        rw [ih (a % 10 ^ m) (b % 10 ^ m) (Nat.mod_lt _ h10) (Nat.mod_lt _ h10)]
        rw [hsplit, heq]
        simp

theorem padNat_inj : ∀ (n a b : ℕ), a < 10 ^ n → b < 10 ^ n →
    (padNat n a = padNat n b ↔ a = b) := by
  intro n
  induction n with
  | zero =>
    intro a b ha hb
    simp only [pow_zero, Nat.lt_one_iff] at ha hb
    subst ha
    subst hb
    simp
  | succ m ih =>
    intro a b ha hb
    have h10 : (0 : ℕ) < 10 ^ m := Nat.pos_pow_of_pos m (by omega)
    have hda : a / 10 ^ m < 10 := by
      rw [Nat.div_lt_iff_lt_mul h10]
      rw [pow_succ] at ha
      omega
    have hdb : b / 10 ^ m < 10 := by
      rw [Nat.div_lt_iff_lt_mul h10]
      rw [pow_succ] at hb
      omega
    rw [padNat, padNat, List.cons.injEq]
    rw [digitChar_inj _ hda _ hdb,
      ih (a % 10 ^ m) (b % 10 ^ m) (Nat.mod_lt _ h10) (Nat.mod_lt _ h10)]
    constructor
    · rintro ⟨h1, h2⟩
      have ha2 := Nat.div_add_mod a (10 ^ m)
      have hb2 := Nat.div_add_mod b (10 ^ m)
      rw [h1, h2] at ha2
      omega
    · rintro rfl
      exact ⟨rfl, rfl⟩

theorem lexLt_append_eqlen : ∀ (s1 s2 t1 t2 : List Char), s1.length = s2.length →
    (lexLt (s1 ++ t1) (s2 ++ t2) = true ↔
      (lexLt s1 s2 = true ∨ (s1 = s2 ∧ lexLt t1 t2 = true))) := by
  intro s1
  induction s1 with
  | nil =>
    intro s2 t1 t2 hlen
    cases s2 with
    | nil => simp [lexLt]
    | cons b bs => simp at hlen
  | cons a as ih =>
    intro s2 t1 t2 hlen
    cases s2 with
    | nil => simp at hlen
    | cons b bs =>
      rw [List.length_cons, List.length_cons] at hlen
      rw [List.cons_append, List.cons_append, lexLt, lexLt]
      by_cases h1 : a < b
      · rw [if_pos h1, if_pos h1]
        simp
      · rw [if_neg h1, if_neg h1]
        by_cases h2 : b < a
        · rw [if_pos h2, if_pos h2]
          have hne : ¬(a :: as = b :: bs) := by
            intro hh
            rw [List.cons.injEq] at hh
            exact absurd hh.1 (by intro hq; subst hq; exact h2.false)
          simp [hne]
        · rw [if_neg h2, if_neg h2]
          have heq : a = b := le_antisymm (not_lt.mp h2) (not_lt.mp h1)
          subst heq
          rw [ih bs t1 t2 (by omega)]
          simp [List.cons.injEq]

theorem lexLt_cons_same (c : Char) (t1 t2 : List Char) :
    lexLt (c :: t1) (c :: t2) = lexLt t1 t2 := by
  rw [lexLt, if_neg (lt_irrefl c), if_neg (lt_irrefl c)]

theorem lexLt_iso_iff {a b : Date}
    (hva : validYMD a.year a.month a.day) (hvb : validYMD b.year b.month b.day) :
    (lexLt a.toISO.data b.toISO.data = true ↔
      (a.year < b.year ∨ (a.year = b.year ∧
        (a.month < b.month ∨ (a.month = b.month ∧ a.day < b.day))))) := by
  obtain ⟨ha1, ha2, ha3, ha4, ha5, ha6⟩ := hva
  obtain ⟨hb1, hb2, hb3, hb4, hb5, hb6⟩ := hvb
  have hy10 : a.year < 10 ^ 4 := by omega
  have hy10b : b.year < 10 ^ 4 := by omega
  have hm10 : a.month < 10 ^ 2 := by omega
  have hm10b : b.month < 10 ^ 2 := by omega
  have hb31 : ∀ (c : Bool), ∀ m < 13, daysInMonth c m ≤ 31 := by decide
  have hdima : a.day < 10 ^ 2 := by
    have := hb31 (isLeap a.year) a.month (by omega)
    omega
  have hdimb : b.day < 10 ^ 2 := by
    have := hb31 (isLeap b.year) b.month (by omega)
    omega
  show lexLt (padNat 4 a.year ++ '-' :: (padNat 2 a.month ++ '-' :: padNat 2 a.day))
      (padNat 4 b.year ++ '-' :: (padNat 2 b.month ++ '-' :: padNat 2 b.day)) = true ↔ _
  rw [lexLt_append_eqlen _ _ _ _ (by rw [padNat_length, padNat_length])]
  rw [lexLt_padNat 4 _ _ hy10 hy10b, padNat_inj 4 _ _ hy10 hy10b]
  rw [lexLt_cons_same]
  rw [lexLt_append_eqlen _ _ _ _ (by rw [padNat_length, padNat_length])]
  rw [lexLt_padNat 2 _ _ hm10 hm10b, padNat_inj 2 _ _ hm10 hm10b]
  rw [lexLt_cons_same]
  rw [lexLt_padNat 2 _ _ hdima hdimb]

theorem cumDays_le : ∀ (b : Bool), ∀ m < 13, 1 ≤ m →
    cumDays b m + daysInMonth b m ≤ 365 + (if b then 1 else 0) := by decide

theorem cumDays_step : ∀ (b : Bool), ∀ m < 12, 1 ≤ m →
    cumDays b (m + 1) = cumDays b m + daysInMonth b m := by decide

theorem cumDays_mono : ∀ (b : Bool), ∀ m2 < 13, ∀ m1 < 13, m1 ≤ m2 →
    cumDays b m1 ≤ cumDays b m2 := by decide

set_option maxHeartbeats 1600000 in
theorem daysBeforeYear_succ (y : ℕ) (hy : 1 ≤ y) :
    daysBeforeYear (y + 1) = daysBeforeYear y + 365 + (if isLeap y then 1 else 0) := by
  by_cases h : isLeap y = true
  · rw [if_pos h]
    simp only [isLeap, Bool.and_eq_true, Bool.or_eq_true, beq_iff_eq, bne_iff_ne,
      ne_eq] at h
    unfold daysBeforeYear
    omega
  · rw [if_neg h]
    simp only [isLeap, Bool.and_eq_true, Bool.or_eq_true, beq_iff_eq, bne_iff_ne,
      ne_eq, not_and, not_or, not_not] at h
    unfold daysBeforeYear
    by_cases h4 : y % 4 = 0
    · have := h h4
      omega
    · omega

theorem daysBeforeYear_succ_ge (y : ℕ) :
    daysBeforeYear y ≤ daysBeforeYear (y + 1) := by
  rcases Nat.eq_zero_or_pos y with rfl | hy
  · unfold daysBeforeYear
    omega
  · rw [daysBeforeYear_succ y hy]
    split_ifs <;> omega

theorem daysBeforeYear_mono : ∀ {y1 y2 : ℕ}, y1 ≤ y2 →
    daysBeforeYear y1 ≤ daysBeforeYear y2 := by
  intro y1 y2
  induction y2 with
  | zero =>
    intro h
    have h0 : y1 = 0 := by omega
    rw [h0]
  | succ n ih =>
    intro h
    rcases Nat.lt_or_ge y1 (n + 1) with hlt | hge
    · exact le_trans (ih (by omega)) (daysBeforeYear_succ_ge n)
    · have h1 : y1 = n + 1 := by omega
      rw [h1]

theorem ordOf_year_bound {d : Date} (hv : validYMD d.year d.month d.day) :
    ordOf d ≤ daysBeforeYear (d.year + 1) := by
  obtain ⟨h1, h2, h3, h4, h5, h6⟩ := hv
  unfold ordOf
  have hcum := cumDays_le (isLeap d.year) d.month (by omega) h3
  have hsucc := daysBeforeYear_succ d.year h1
  generalize hL : (if isLeap d.year then 1 else 0) = L at hcum hsucc
  omega

theorem ordOf_lt_of_tripleLt {a b : Date}
    (hva : validYMD a.year a.month a.day) (hvb : validYMD b.year b.month b.day)
    (h : a.year < b.year ∨ (a.year = b.year ∧
      (a.month < b.month ∨ (a.month = b.month ∧ a.day < b.day)))) :
    ordOf a < ordOf b := by
  obtain ⟨ha1, ha2, ha3, ha4, ha5, ha6⟩ := hva
  obtain ⟨hb1, hb2, hb3, hb4, hb5, hb6⟩ := hvb
  rcases h with hy | ⟨hy, hrest⟩
  · have h1 : ordOf a ≤ daysBeforeYear (a.year + 1) :=
      ordOf_year_bound ⟨ha1, ha2, ha3, ha4, ha5, ha6⟩
    have h2 : daysBeforeYear (a.year + 1) < ordOf b := by
      unfold ordOf
      have hmono : daysBeforeYear (a.year + 1) ≤ daysBeforeYear b.year :=
        daysBeforeYear_mono (by omega)
      omega
    omega
  · rcases hrest with hm | ⟨hm, hd⟩
    · unfold ordOf
      rw [hy] at ha6 ⊢
      have hstep : cumDays (isLeap b.year) (a.month + 1)
          = cumDays (isLeap b.year) a.month + daysInMonth (isLeap b.year) a.month :=
        cumDays_step _ a.month (by omega) ha3
      have hmono : cumDays (isLeap b.year) (a.month + 1) ≤ cumDays (isLeap b.year) b.month :=
        cumDays_mono _ b.month (by omega) (a.month + 1) (by omega) (by omega)
      omega
    · unfold ordOf
      rw [hy, hm]
      omega

theorem lexLe_iso_iff {a b : Date}
    (hva : validYMD a.year a.month a.day) (hvb : validYMD b.year b.month b.day) :
    (lexLe a.toISO.data b.toISO.data = true ↔ ordOf a ≤ ordOf b) := by
  have hstrict : lexLt b.toISO.data a.toISO.data = true ↔ ordOf b < ordOf a := by
    rw [lexLt_iso_iff hvb hva]
    constructor
    · exact ordOf_lt_of_tripleLt hvb hva
    · intro hlt
      have htri : (b.year < a.year ∨ (b.year = a.year ∧
          (b.month < a.month ∨ (b.month = a.month ∧ b.day < a.day)))) ∨
          (b.year = a.year ∧ b.month = a.month ∧ b.day = a.day) ∨
          (a.year < b.year ∨ (a.year = b.year ∧
            (a.month < b.month ∨ (a.month = b.month ∧ a.day < b.day)))) := by omega
      rcases htri with htri | htri | htri
      · exact htri
      · exfalso
        obtain ⟨h1, h2, h3⟩ := htri
        have : ordOf b = ordOf a := by
          unfold ordOf
          rw [h1, h2, h3]
        omega
      · exfalso
        have := ordOf_lt_of_tripleLt hva hvb htri
        omega
  unfold lexLe
  rw [Bool.not_eq_true']
  constructor
  · intro h
    by_contra hle
    have := hstrict.mpr (by omega)
    rw [h] at this
    exact Bool.false_ne_true this
  · intro h
    cases hcase : lexLt b.toISO.data a.toISO.data with
    | false => rfl
    | true =>
      have := hstrict.mp hcase
      omega

theorem prevDay_spec {d : Date} (hv : validYMD d.year d.month d.day)
    (h2 : 2 ≤ ordOf d) :
    validYMD (prevDay d).year (prevDay d).month (prevDay d).day ∧
      ordOf (prevDay d) + 1 = ordOf d := by
  obtain ⟨h1, h9999, hm1, hm12, hd1, hdm⟩ := hv
  unfold prevDay
  by_cases hd : 2 ≤ d.day
  · rw [if_pos hd]
    dsimp only
    refine ⟨⟨h1, h9999, hm1, hm12, by omega, by omega⟩, ?_⟩
    unfold ordOf
    dsimp only
    omega
  · rw [if_neg hd]
    have hday1 : d.day = 1 := by omega
    by_cases hm : 2 ≤ d.month
    · rw [if_pos hm]
      dsimp only
      have hdim1 : ∀ (b : Bool), ∀ m < 12, 1 ≤ m → 1 ≤ daysInMonth b m := by decide
      refine ⟨⟨h1, h9999, by omega, by omega,
        hdim1 _ _ (by omega) (by omega), le_refl _⟩, ?_⟩
      unfold ordOf
      dsimp only
      have hstep : cumDays (isLeap d.year) (d.month - 1 + 1)
          = cumDays (isLeap d.year) (d.month - 1)
            + daysInMonth (isLeap d.year) (d.month - 1) :=
        cumDays_step _ _ (by omega) (by omega)
      have hmm : d.month - 1 + 1 = d.month := by omega
      rw [hmm] at hstep
      omega
    · rw [if_neg hm]
      try dsimp only
      have hmo : d.month = 1 := by omega
      have hy2 : 2 ≤ d.year := by
        by_contra hy
        have hy1 : d.year = 1 := by omega
        unfold ordOf at h2
        rw [hy1, hmo, hday1] at h2
        simp [daysBeforeYear, cumDays, isLeap] at h2
      have hc12 : ∀ (b : Bool), cumDays b 12 = 334 + (if b then 1 else 0) := by decide
      have hc1 : ∀ (b : Bool), cumDays b 1 = 0 := by decide
      have hd12 : ∀ (b : Bool), daysInMonth b 12 = 31 := by decide
      refine ⟨⟨by omega, by omega, by omega, by omega, by omega, ?_⟩, ?_⟩
      · rw [hd12]
      · unfold ordOf
        dsimp only
        rw [hmo, hday1]
        have hsucc : daysBeforeYear (d.year - 1 + 1)
            = daysBeforeYear (d.year - 1) + 365
              + (if isLeap (d.year - 1) then 1 else 0) :=
          daysBeforeYear_succ _ (by omega)
        have hyy : d.year - 1 + 1 = d.year := by omega
        rw [hyy] at hsucc
        rw [hc12, hc1, hsucc]
        generalize (if isLeap (d.year - 1) then 1 else 0) = L at *
        omega

theorem nextDay_spec {d : Date} (hv : validYMD d.year d.month d.day)
    (hlt : ordOf d < ordOf ⟨9999, 12, 31⟩) :
    validYMD (nextDay d).year (nextDay d).month (nextDay d).day ∧
      ordOf (nextDay d) = ordOf d + 1 := by
  obtain ⟨h1, h9999, hm1, hm12, hd1, hdm⟩ := hv
  unfold nextDay
  by_cases hd : d.day < daysInMonth (isLeap d.year) d.month
  · rw [if_pos hd]
    dsimp only
    refine ⟨⟨h1, h9999, hm1, hm12, by omega, by omega⟩, ?_⟩
    unfold ordOf
    dsimp only
    omega
  · rw [if_neg hd]
    have hdend : d.day = daysInMonth (isLeap d.year) d.month := by omega
    by_cases hm : d.month < 12
    · rw [if_pos hm]
      dsimp only
      refine ⟨⟨h1, h9999, by omega, by omega, by omega, ?_⟩, ?_⟩
      · have hdim1 : ∀ (b : Bool), ∀ m < 13, 1 ≤ m → 1 ≤ daysInMonth b m := by decide
        exact hdim1 _ _ (by omega) (by omega)
      · unfold ordOf
        dsimp only
        have hstep : cumDays (isLeap d.year) (d.month + 1)
            = cumDays (isLeap d.year) d.month + daysInMonth (isLeap d.year) d.month :=
          cumDays_step _ _ (by omega) (by omega)
        omega
    · rw [if_neg hm]
      try dsimp only
      have hmo : d.month = 12 := by omega
      have hd12 : ∀ (b : Bool), daysInMonth b 12 = 31 := by decide
      have hc12 : ∀ (b : Bool), cumDays b 12 = 334 + (if b then 1 else 0) := by decide
      have hc1 : ∀ (b : Bool), cumDays b 1 = 0 := by decide
      have hy98 : d.year ≤ 9998 := by
        by_contra hy
        have hy99 : d.year = 9999 := by omega
        have : ordOf d = ordOf ⟨9999, 12, 31⟩ := by
          unfold ordOf
          dsimp only
          rw [hdend, hy99, hmo, hd12]
        omega
      refine ⟨⟨by omega, by omega, by omega, by omega, by omega, ?_⟩, ?_⟩
      · have hdim1 : ∀ (b : Bool), 1 ≤ daysInMonth b 1 := by decide
        exact hdim1 _
      · unfold ordOf
        dsimp only
        rw [hdend, hmo, hd12, hc12, hc1]
        have hsucc : daysBeforeYear (d.year + 1)
            = daysBeforeYear d.year + 365 + (if isLeap d.year then 1 else 0) :=
          daysBeforeYear_succ _ h1
        rw [hsucc]
        generalize (if isLeap d.year then 1 else 0) = L at *
        omega

theorem subDays_spec : ∀ (k : ℕ) (d : Date),
    validYMD d.year d.month d.day → k + 1 ≤ ordOf d →
    (validYMD (subDays d k).year (subDays d k).month (subDays d k).day ∧
      ordOf (subDays d k) = ordOf d - k) := by
  intro k
  induction k with
  | zero =>
    intro d hv _
    exact ⟨hv, rfl⟩
  | succ m ih =>
    intro d hv hk
    have hord1 : 1 ≤ ordOf d := by omega
    have hp := prevDay_spec hv (by omega)
    have hrec := ih (prevDay d) hp.1 (by omega)
    rw [subDays]
    exact ⟨hrec.1, by omega⟩

theorem addDays_spec : ∀ (k : ℕ) (d : Date),
    validYMD d.year d.month d.day → ordOf d + k ≤ ordOf ⟨9999, 12, 31⟩ →
    (validYMD (addDays d k).year (addDays d k).month (addDays d k).day ∧
      ordOf (addDays d k) = ordOf d + k) := by
  intro k
  induction k with
  | zero =>
    intro d hv _
    exact ⟨hv, rfl⟩
  | succ m ih =>
    intro d hv hk
    have hn := nextDay_spec hv (by omega)
    have hrec := ih (nextDay d) hn.1 (by omega)
    rw [addDays]
    exact ⟨hrec.1, by omega⟩

/-- Claim C5: the week query returns all and only the stored entries
whose date lies within the Monday–Sunday week of the reference date,
inclusive on both ends, with Monday = the reference date minus its
zero-indexed weekday offset; the result preserves ledger insertion
order (it is a sublist of the store). -/
theorem c5_week_query (entries : List Entry) (ref : Date) (e : Entry) (de : Date)
    (hv : validYMD ref.year ref.month ref.day)
    (h7 : 7 ≤ ordOf ref) (h98 : ref.year ≤ 9998)
    (hde : validYMD de.year de.month de.day) (hdate : e.date = de.toISO) :
    (e ∈ get_week_entries entries ref ↔
      (e ∈ entries ∧ ordOf ref - weekdayOf ref ≤ ordOf de ∧
        ordOf de ≤ ordOf ref - weekdayOf ref + 6)) ∧
      (get_week_entries entries ref).Sublist entries := by
  have hwd : weekdayOf ref ≤ 6 := by
    unfold weekdayOf
    omega
  have hmon := subDays_spec (weekdayOf ref) ref hv (by omega)
  have hrefmax : ordOf ref + 6 ≤ ordOf ⟨9999, 12, 31⟩ := by
    have hyb := ordOf_year_bound hv
    have hmono : daysBeforeYear (ref.year + 1) ≤ daysBeforeYear 9999 :=
      daysBeforeYear_mono (by omega)
    have hmax : daysBeforeYear 9999 + 365 ≤ ordOf ⟨9999, 12, 31⟩ := by
      unfold ordOf
      dsimp only
      have hc12 : ∀ (b : Bool), cumDays b 12 = 334 + (if b then 1 else 0) := by decide
      rw [hc12]
      split_ifs <;> omega
    omega
  have hsun := addDays_spec 6 (mondayOf ref) hmon.1 (by
    unfold mondayOf
    omega)
  have hmonv : validYMD (mondayOf ref).year (mondayOf ref).month (mondayOf ref).day :=
    hmon.1
  have hsunv : validYMD (sundayOf ref).year (sundayOf ref).month (sundayOf ref).day :=
    hsun.1
  have hmord : ordOf (mondayOf ref) = ordOf ref - weekdayOf ref := hmon.2
  have hsord : ordOf (sundayOf ref) = ordOf ref - weekdayOf ref + 6 := by
    unfold sundayOf
    rw [hsun.2, hmord]
  constructor
  · show e ∈ (entries.filter (fun e => lexLe (mondayOf ref).toISO.data e.date.data)).filter
        (fun e => lexLe e.date.data (sundayOf ref).toISO.data) ↔ _
    rw [List.mem_filter, List.mem_filter]
    rw [hdate]
    rw [lexLe_iso_iff hmonv hde, lexLe_iso_iff hde hsunv]
    rw [hmord, hsord]
    constructor
    · rintro ⟨⟨hmem, hlo⟩, hhi⟩
      exact ⟨hmem, hlo, hhi⟩
    · rintro ⟨hmem, hlo, hhi⟩
      exact ⟨⟨hmem, hlo⟩, hhi⟩
  · exact (List.filter_sublist _).trans (List.filter_sublist _)

/-- Witness for claim C5 at a concrete store and reference date
(week of Thursday 2026-01-22: Monday 2026-01-19 through Sunday
2026-01-25; the entry is dated 2026-01-20). -/
theorem c5_witness :
    (Entry.mk "i" "t" "2026-01-20" 0 "sale" "sales" "d" []
        ∈ get_week_entries [Entry.mk "i" "t" "2026-01-20" 0 "sale" "sales" "d" []]
          ⟨2026, 1, 22⟩ ↔
      (Entry.mk "i" "t" "2026-01-20" 0 "sale" "sales" "d" []
          ∈ [Entry.mk "i" "t" "2026-01-20" 0 "sale" "sales" "d" []] ∧
        ordOf ⟨2026, 1, 22⟩ - weekdayOf ⟨2026, 1, 22⟩ ≤ ordOf ⟨2026, 1, 20⟩ ∧
        ordOf ⟨2026, 1, 20⟩ ≤ ordOf ⟨2026, 1, 22⟩ - weekdayOf ⟨2026, 1, 22⟩ + 6)) ∧
      (get_week_entries [Entry.mk "i" "t" "2026-01-20" 0 "sale" "sales" "d" []]
          ⟨2026, 1, 22⟩).Sublist
        [Entry.mk "i" "t" "2026-01-20" 0 "sale" "sales" "d" []] :=
  c5_week_query [Entry.mk "i" "t" "2026-01-20" 0 "sale" "sales" "d" []]
    ⟨2026, 1, 22⟩ (Entry.mk "i" "t" "2026-01-20" 0 "sale" "sales" "d" [])
    ⟨2026, 1, 20⟩ (by decide) (by decide) (by decide) (by decide) (by decide)

end WB
